import Mathlib

/-!
Verification of the willow shape-tree server (`src/willow-server/src/lib.rs`,
with message types from `src/willow-protocol/src/lib.rs`).

Modelling conventions:

* Rust `f32` values are modelled by `F32`: a NaN, the two infinities, or an
  exact finite value (a rational).  Finite arithmetic is modelled exactly; the
  IEEE special-value rules (NaN propagation, `0 * inf = NaN`, NaN-ignoring
  `min`/`max`, all comparisons with NaN false) are modelled faithfully, since
  the bounding-box algebra of the server depends on them.  No verified claim
  depends on rounding of finite arithmetic.
* The trigonometric functions used by `Mat2::from_angle` / `Mat3::from_rotation_z`
  are not modelled; every definition that may need them takes a `Trig`
  parameter supplying some implementation, and every theorem is universally
  quantified over it.  No claim depends on the value of a sine or cosine.
* `u32`/`usize` node indices are modelled as `Nat`; the casts between them in
  the server are lossless for every index the arena can produce.
* `slab::Slab` is modelled by `Slab`: a list of entries (each vacant with a
  stored next-free index, or occupied), plus the `next` head of the free list,
  mirroring the slab crate.  The `unreachable!` branch of `Slab::insert` (hit
  only when the internal free list is corrupt, which the crate's operations
  never produce) is modelled as appending a fresh slot at the end, and the
  panicking branches of `Slab::remove` / `get_mut(..).unwrap()` as no-ops;
  every theorem whose claim could be affected carries the structural-invariant
  hypotheses under which those branches are unreachable.
* `Shape::Text` and `Operation::Blur` are matched by the server but are absent
  from the protocol file in the repository snapshot; they are modelled from the
  spec (section 3): `Text { content, font }`, `Blur { radius }`.
-/

namespace Willow

/-- Modelled from the source (`f32`): a 32-bit float is NaN, an infinity, or a
finite value; finite values are modelled as exact rationals. -/
inductive F32 : Type where
  | nan : F32
  | inf : F32
  | ninf : F32
  | fin : ℚ → F32
deriving DecidableEq, Repr

namespace F32

/-- IEEE `is_nan`. -/
def isNaN : F32 → Bool
  | nan => true
  | _ => false

/-- IEEE negation. -/
def neg : F32 → F32
  | nan => nan
  | inf => ninf
  | ninf => inf
  | fin q => fin (-q)

/-- IEEE addition (exact on finite values). -/
def add : F32 → F32 → F32
  | nan, _ => nan
  | _, nan => nan
  | inf, ninf => nan
  | ninf, inf => nan
  | inf, _ => inf
  | _, inf => inf
  | ninf, _ => ninf
  | _, ninf => ninf
  | fin a, fin b => fin (a + b)

/-- IEEE subtraction, `a - b = a + (-b)`. -/
def sub (a b : F32) : F32 := add a (neg b)

/-- IEEE multiplication (exact on finite values); `0 * ±inf = NaN`. -/
def mul : F32 → F32 → F32
  | nan, _ => nan
  | _, nan => nan
  | inf, inf => inf
  | inf, ninf => ninf
  | ninf, inf => ninf
  | ninf, ninf => inf
  | inf, fin b => if b = 0 then nan else if 0 < b then inf else ninf
  | fin a, inf => if a = 0 then nan else if 0 < a then inf else ninf
  | ninf, fin b => if b = 0 then nan else if 0 < b then ninf else inf
  | fin a, ninf => if a = 0 then nan else if 0 < a then ninf else inf
  | fin a, fin b => fin (a * b)

/-- IEEE strict less-than: every comparison involving NaN is false. -/
def lt : F32 → F32 → Bool
  | nan, _ => false
  | _, nan => false
  | ninf, ninf => false
  | ninf, _ => true
  | _, ninf => false
  | inf, inf => false
  | _, inf => true
  | inf, _ => false
  | fin a, fin b => decide (a < b)

/-- Rust `a > b`, i.e. `b < a`. -/
def gt (a b : F32) : Bool := lt b a

/-- Rust `f32::min`: if one argument is NaN the other is returned. -/
def min (a b : F32) : F32 :=
  if a.isNaN then b else if b.isNaN then a else if lt b a then b else a

/-- Rust `f32::max`: if one argument is NaN the other is returned. -/
def max (a b : F32) : F32 :=
  if a.isNaN then b else if b.isNaN then a else if lt a b then b else a

end F32

/-- Modelled from the source (`glam::Vec2`). -/
structure Vec2 : Type where
  x : F32
  y : F32
deriving DecidableEq, Repr

namespace Vec2

def add (a b : Vec2) : Vec2 := ⟨a.x.add b.x, a.y.add b.y⟩

def sub (a b : Vec2) : Vec2 := ⟨a.x.sub b.x, a.y.sub b.y⟩

def neg (a : Vec2) : Vec2 := ⟨a.x.neg, a.y.neg⟩

/-- `Vec2 * f32` (componentwise scale). -/
def mulF (a : Vec2) (s : F32) : Vec2 := ⟨a.x.mul s, a.y.mul s⟩

/-- `Vec2 - f32` (componentwise). -/
def subF (a : Vec2) (s : F32) : Vec2 := ⟨a.x.sub s, a.y.sub s⟩

/-- `Vec2 + f32` (componentwise). -/
def addF (a : Vec2) (s : F32) : Vec2 := ⟨a.x.add s, a.y.add s⟩

/-- `Vec2::min` (componentwise, NaN-ignoring as in Rust). -/
def min (a b : Vec2) : Vec2 := ⟨a.x.min b.x, a.y.min b.y⟩

/-- `Vec2::max` (componentwise, NaN-ignoring as in Rust). -/
def max (a b : Vec2) : Vec2 := ⟨a.x.max b.x, a.y.max b.y⟩

def splat (s : F32) : Vec2 := ⟨s, s⟩

/-- `Vec2::INFINITY`. -/
def INFINITY : Vec2 := ⟨F32.inf, F32.inf⟩

/-- `Vec2::NEG_INFINITY`. -/
def NEG_INFINITY : Vec2 := ⟨F32.ninf, F32.ninf⟩

/-- `Vec2::default()` = zero. -/
def zero : Vec2 := ⟨F32.fin 0, F32.fin 0⟩

end Vec2

/-- Modelled from the source (`glam::Vec3A`, used only as a colour payload). -/
structure Vec3A : Type where
  x : F32
  y : F32
  z : F32
deriving DecidableEq, Repr

/-- Source: `willow-server/src/lib.rs`, `struct Aabb`. -/
structure Aabb : Type where
  min : Vec2
  max : Vec2
deriving DecidableEq, Repr

namespace Aabb

/-- `Aabb::default()`: both corners zero (Rust `derive(Default)`). -/
def default : Aabb := ⟨Vec2.zero, Vec2.zero⟩

/-- Source: `Aabb::INVALID`. -/
def INVALID : Aabb := ⟨Vec2.INFINITY, Vec2.NEG_INFINITY⟩

/-- Source: `Aabb::union`. -/
def union (a other : Aabb) : Aabb := ⟨a.min.min other.min, a.max.max other.max⟩

/-- Source: `Aabb::is_intersecting` (strict inequalities on both axes). -/
def is_intersecting (a other : Aabb) : Bool :=
  a.min.x.lt other.max.x && a.max.x.gt other.min.x &&
    a.min.y.lt other.max.y && a.max.y.gt other.min.y

/-- Source: `Aabb::corners`, in the fixed order
`min, (min.x, max.y), (max.x, min.y), max`. -/
def corners (a : Aabb) : List Vec2 :=
  [a.min, ⟨a.min.x, a.max.y⟩, ⟨a.max.x, a.min.y⟩, a.max]

end Aabb

/-- Implementations of the trigonometric functions used by
`Mat2::from_angle` and `Mat3::from_rotation_z`; the embedding is parametric in
them and no claim depends on their values. -/
structure Trig : Type where
  cos : F32 → F32
  sin : F32 → F32

/-- Modelled from the source (`glam::Mat2`, column-major). -/
structure Mat2 : Type where
  xAxis : Vec2
  yAxis : Vec2
deriving DecidableEq, Repr

namespace Mat2

/-- `glam::Mat2::from_angle`. -/
def from_angle (trig : Trig) (angle : F32) : Mat2 :=
  ⟨⟨trig.cos angle, trig.sin angle⟩, ⟨(trig.sin angle).neg, trig.cos angle⟩⟩

/-- `Mat2 * Vec2 = x_axis * v.x + y_axis * v.y`. -/
def mulVec2 (m : Mat2) (v : Vec2) : Vec2 :=
  (m.xAxis.mulF v.x).add (m.yAxis.mulF v.y)

end Mat2

/-- Modelled from the source (`glam::Vec3`, a matrix column). -/
structure Vec3 : Type where
  x : F32
  y : F32
  z : F32
deriving DecidableEq, Repr

namespace Vec3

def mulF (a : Vec3) (s : F32) : Vec3 := ⟨a.x.mul s, a.y.mul s, a.z.mul s⟩

def add (a b : Vec3) : Vec3 := ⟨a.x.add b.x, a.y.add b.y, a.z.add b.z⟩

def xy (a : Vec3) : Vec2 := ⟨a.x, a.y⟩

end Vec3

/-- Modelled from the source (`glam::Mat3`, column-major). -/
structure Mat3 : Type where
  xAxis : Vec3
  yAxis : Vec3
  zAxis : Vec3
deriving DecidableEq, Repr

namespace Mat3

/-- `glam::Mat3::default()` = `Mat3::IDENTITY`. -/
def default : Mat3 :=
  ⟨⟨F32.fin 1, F32.fin 0, F32.fin 0⟩,
   ⟨F32.fin 0, F32.fin 1, F32.fin 0⟩,
   ⟨F32.fin 0, F32.fin 0, F32.fin 1⟩⟩

/-- `glam::Mat3::from_translation`. -/
def from_translation (t : Vec2) : Mat3 :=
  ⟨⟨F32.fin 1, F32.fin 0, F32.fin 0⟩,
   ⟨F32.fin 0, F32.fin 1, F32.fin 0⟩,
   ⟨t.x, t.y, F32.fin 1⟩⟩

/-- `glam::Mat3::from_rotation_z`. -/
def from_rotation_z (trig : Trig) (angle : F32) : Mat3 :=
  ⟨⟨trig.cos angle, trig.sin angle, F32.fin 0⟩,
   ⟨(trig.sin angle).neg, trig.cos angle, F32.fin 0⟩,
   ⟨F32.fin 0, F32.fin 0, F32.fin 1⟩⟩

/-- `glam::Mat3::from_scale`. -/
def from_scale (s : Vec2) : Mat3 :=
  ⟨⟨s.x, F32.fin 0, F32.fin 0⟩,
   ⟨F32.fin 0, s.y, F32.fin 0⟩,
   ⟨F32.fin 0, F32.fin 0, F32.fin 1⟩⟩

/-- `Mat3 * Vec3` (column combination, left-to-right additions as in glam). -/
def mulVec3 (m : Mat3) (v : Vec3) : Vec3 :=
  ((m.xAxis.mulF v.x).add (m.yAxis.mulF v.y)).add (m.zAxis.mulF v.z)

/-- `Mat3 * Mat3`. -/
def mul (a b : Mat3) : Mat3 :=
  ⟨a.mulVec3 b.xAxis, a.mulVec3 b.yAxis, a.mulVec3 b.zAxis⟩

/-- `glam::Mat3::transform_point2`:
`Mat2::from_cols(x_axis.xy, y_axis.xy) * p + z_axis.xy`. -/
def transform_point2 (m : Mat3) (p : Vec2) : Vec2 :=
  (Mat2.mulVec2 ⟨m.xAxis.xy, m.yAxis.xy⟩ p).add m.zAxis.xy

end Mat3

/-- Source: `willow-protocol`, `enum Stroke`. -/
inductive Stroke : Type where
  | solid : Vec3A → Stroke
deriving DecidableEq, Repr

/-- Source: `willow-protocol`, `enum Operation`.  `blur` is matched by the
server; it is absent from the protocol file and modelled from the spec
(`Blur { radius: f32 }`). -/
inductive Operation : Type where
  | stroke : Stroke → Operation
  | translate : Vec2 → Operation
  | rotation : F32 → Operation
  | scale : F32 → Operation
  | opacity : F32 → Operation
  | blur : F32 → Operation
deriving DecidableEq, Repr

/-- Source: `willow-protocol`, `enum Shape`.  `text` is matched by the server;
it is absent from the protocol file and modelled from the spec
(`Text { content: string, font: string }`). -/
inductive Shape : Type where
  | empty : Shape
  | circle : F32 → Shape
  | rectangle : Vec2 → Vec2 → Shape
  | text : String → String → Shape
deriving DecidableEq, Repr

/-- Source: `willow-server`, `enum NodeKind`. -/
inductive NodeKind : Type where
  | shape : Shape → NodeKind
  | operation : Operation → Nat → NodeKind
  | group : List Nat → NodeKind
deriving DecidableEq, Repr

/-- Source: `willow-server`, `struct Node`. -/
structure Node : Type where
  kind : NodeKind
  owned : Bool
  reused : Bool
  aabb : Aabb
deriving DecidableEq, Repr

/-- Source: `Node::new` (flags start false). -/
def Node.new (kind : NodeKind) (aabb : Aabb) : Node :=
  ⟨kind, false, false, aabb⟩

/-- Source: `willow-protocol`, `enum NewNode`. -/
inductive NewNode : Type where
  | shape : Shape → NewNode
  | operation : Operation → NewNode → NewNode
  | group : List NewNode → NewNode

/-- Source: `willow-protocol`, `enum ChildUpdate`. -/
inductive ChildUpdate : Type where
  | keepIndex : Nat → ChildUpdate
  | newNode : NewNode → ChildUpdate

/-- Source: `willow-protocol`, `enum NodeContent`. -/
inductive NodeContent : Type where
  | shape : Shape → NodeContent
  | operation : Operation → ChildUpdate → NodeContent
  | group : Option (List ChildUpdate) → NodeContent

/-- Source: `willow-protocol`, `struct NodeUpdate`. -/
structure NodeUpdate : Type where
  target : Nat
  content : NodeContent

/-- Source: `willow-protocol`, `struct NodeUpdateResponse`. -/
structure NodeUpdateResponse : Type where
  newNodes : List Nat
deriving DecidableEq, Repr

/-- Source: `willow-server`, `enum NodeUpdateError`. -/
inductive NodeUpdateError : Type where
  | invalidTarget : NodeUpdateError
  | invalidKeepIndex : Nat → NodeUpdateError
  | unownedKeepIndex : Nat → NodeUpdateError
  | duplicateKeepIndex : Nat → NodeUpdateError
deriving DecidableEq, Repr

instance {e a : Type} [DecidableEq e] [DecidableEq a] : DecidableEq (Except e a) :=
  fun x y =>
    match x, y with
    | Except.ok v, Except.ok w => decidable_of_iff (v = w) (by simp)
    | Except.error v, Except.error w => decidable_of_iff (v = w) (by simp)
    | Except.ok _, Except.error _ => isFalse (fun h => by cases h)
    | Except.error _, Except.ok _ => isFalse (fun h => by cases h)

/-- Modelled from the source (`slab::Slab` entry): a slot is vacant (storing
the next free slot index) or occupied. -/
inductive SlabEntry (α : Type) : Type where
  | vacant : Nat → SlabEntry α
  | occupied : α → SlabEntry α
deriving DecidableEq, Repr

/-- Modelled from the source (`slab::Slab`): entry vector plus the head of the
free list. -/
structure Slab (α : Type) : Type where
  entries : List (SlabEntry α)
  next : Nat
deriving DecidableEq, Repr

namespace Slab

/-- `Slab::new()`. -/
def empty : Slab α := ⟨[], 0⟩

/-- `Slab::get`: `Some` exactly on occupied slots. -/
def get (s : Slab α) (i : Nat) : Option α :=
  match s.entries[i]? with
  | some (SlabEntry.occupied a) => some a
  | _ => none

/-- `Slab::insert`.  If `next` points at the end, a slot is appended;
if it points at a vacant slot, that slot is filled and the free-list head
advances.  The remaining case is the crate's `unreachable!` branch (a corrupt
free list, which no slab operation produces); it is modelled as appending a
fresh slot so that it, too, returns a previously-vacant index. -/
def insert (s : Slab α) (x : α) : Nat × Slab α :=
  if s.next = s.entries.length then
    (s.next, ⟨s.entries ++ [SlabEntry.occupied x], s.next + 1⟩)
  else
    match s.entries[s.next]? with
    | some (SlabEntry.vacant k) =>
        (s.next, ⟨s.entries.set s.next (SlabEntry.occupied x), k⟩)
    | _ => (s.entries.length, ⟨s.entries ++ [SlabEntry.occupied x], s.next⟩)

/-- `Slab::remove`: vacate the slot and make it the free-list head.
`slab::Slab::remove` panics when the key is not occupied; that branch is
unreachable under the invariants carried by the theorems and is modelled as a
no-op. -/
def remove (s : Slab α) (i : Nat) : Slab α :=
  match s.entries[i]? with
  | some (SlabEntry.occupied _) => ⟨s.entries.set i (SlabEntry.vacant s.next), i⟩
  | _ => s

/-- `get_mut(i)` followed by writing `f` through the reference.  The `unwrap`
panics when the slot is not occupied; that branch is unreachable under the
invariants carried by the theorems and is modelled as a no-op. -/
def modify (s : Slab α) (i : Nat) (f : α → α) : Slab α :=
  match s.entries[i]? with
  | some (SlabEntry.occupied a) => ⟨s.entries.set i (SlabEntry.occupied (f a)), s.next⟩
  | _ => s

/-- `mem::replace` through `get_mut(i).unwrap()` (whole-node overwrite). -/
def setVal (s : Slab α) (i : Nat) (x : α) : Slab α :=
  s.modify i (fun _ => x)

end Slab

/-- Source: `willow-server`, `struct Tree`. -/
structure Tree : Type where
  nodes : Slab Node
deriving DecidableEq, Repr

/-- Source: `Tree::new`: one inserted node of kind `Shape(Empty)` with
`Aabb::default()`. -/
def Tree.new : Tree :=
  ⟨(Slab.empty.insert (Node.new (NodeKind.shape Shape.empty) Aabb.default)).2⟩

/-- The cached AABB of the node at `i`, as read by `self.nodes[i].aabb` in
`create_new_node`.  Indexing a vacant slot panics in Rust; that case is
unreachable under referential integrity and modelled as `INVALID`. -/
def Tree.aabbOf (t : Tree) (i : Nat) : Aabb :=
  match t.nodes.get i with
  | some n => n.aabb
  | none => Aabb.INVALID

/-- Source: `Tree::create_new_node`: computes the AABB of a node of the given
kind from the cached AABBs of its (already present) children. -/
def Tree.create_new_node (trig : Trig) (t : Tree) (kind : NodeKind) : Node :=
  let aabb :=
    match kind with
    | NodeKind.shape shape =>
      match shape with
      | Shape.empty => Aabb.INVALID
      | Shape.circle radius => ⟨(Vec2.splat radius).neg, Vec2.splat radius⟩
      | Shape.rectangle mn mx => ⟨mn, mx⟩
      | Shape.text content _font =>
        ⟨⟨F32.fin (-5), F32.fin (-10)⟩,
         ⟨F32.fin ((content.length : ℚ) * 10), F32.fin 5⟩⟩
    | NodeKind.operation operation child =>
      let childAabb := t.aabbOf child
      match operation with
      | Operation.translate offset =>
          ⟨childAabb.min.add offset, childAabb.max.add offset⟩
      | Operation.rotation angle =>
          let mat := Mat2.from_angle trig angle
          let folded := childAabb.corners.foldl
            (fun (mm : Vec2 × Vec2) corner =>
              let c := mat.mulVec2 corner
              (mm.1.min c, mm.2.max c))
            (Vec2.INFINITY, Vec2.NEG_INFINITY)
          ⟨folded.1, folded.2⟩
      | Operation.scale scale =>
          ⟨childAabb.min.mulF scale, childAabb.max.mulF scale⟩
      | Operation.blur radius =>
          ⟨childAabb.min.subF radius, childAabb.max.addF radius⟩
      | _ => childAabb
    | NodeKind.group children =>
      children.foldl (fun aabb child => aabb.union (t.aabbOf child)) Aabb.INVALID
  Node.new kind aabb

/-- Shared tail of `Tree::add_new_node`: build the node, insert it, and append
the allocated index to the response buffer. -/
def Tree.insertNew (trig : Trig) (t : Tree) (buf : List Nat) (kind : NodeKind) :
    Nat × List Nat × Tree :=
  let node := t.create_new_node trig kind
  let r := t.nodes.insert node
  (r.1, buf ++ [r.1], ⟨r.2⟩)

mutual

/-- Source: `Tree::add_new_node`: recursively materialize a `NewNode` subtree,
children first, recording each allocated id in the buffer in insertion order. -/
def Tree.add_new_node (trig : Trig) (t : Tree) (buf : List Nat) :
    NewNode → Nat × List Nat × Tree
  | NewNode.shape shape => Tree.insertNew trig t buf (NodeKind.shape shape)
  | NewNode.operation operation child =>
    let r := Tree.add_new_node trig t buf child
    Tree.insertNew trig r.2.2 r.2.1 (NodeKind.operation operation r.1)
  | NewNode.group children =>
    let r := Tree.add_new_nodes trig t buf children
    Tree.insertNew trig r.2.2 r.2.1 (NodeKind.group r.1)

/-- The `children.into_iter().map(..).collect()` loop of `Tree::add_new_node`,
threading the arena and the response buffer left to right. -/
def Tree.add_new_nodes (trig : Trig) (t : Tree) (buf : List Nat) :
    List NewNode → List Nat × List Nat × Tree
  | [] => ([], buf, t)
  | c :: cs =>
    let r := Tree.add_new_node trig t buf c
    let rs := Tree.add_new_nodes trig r.2.2 r.2.1 cs
    (r.1 :: rs.1, rs.2)

end

/-- Source: `Tree::update_child`: consume one `ChildUpdate`, yielding the
resolved child id. -/
def Tree.update_child (trig : Trig) (t : Tree) (newIndices : List Nat) :
    ChildUpdate → Except NodeUpdateError Nat × List Nat × Tree
  | ChildUpdate.keepIndex idx =>
    match t.nodes.get idx with
    | none => (Except.error (NodeUpdateError.invalidKeepIndex idx), newIndices, t)
    | some node =>
      if !node.owned then
        (Except.error (NodeUpdateError.unownedKeepIndex idx), newIndices, t)
      else if node.reused then
        (Except.error (NodeUpdateError.duplicateKeepIndex idx), newIndices, t)
      else
        (Except.ok idx, newIndices,
          ⟨t.nodes.modify idx (fun n => { n with reused := true })⟩)
  | ChildUpdate.newNode newNode =>
    let r := Tree.add_new_node trig t newIndices newNode
    (Except.ok r.1, r.2.1, r.2.2)

/-- The `for child in new_children` loop of `Tree::update_node_inner` for group
content: resolve each `ChildUpdate` left to right, stopping at the first error
(which leaves the arena as mutated so far, as `?` does in Rust). -/
def Tree.updateChildrenLoop (trig : Trig) (t : Tree) (buf : List Nat) (idxs : List Nat) :
    List ChildUpdate → Except NodeUpdateError (List Nat) × List Nat × Tree
  | [] => (Except.ok idxs, buf, t)
  | c :: cs =>
    match Tree.update_child trig t buf c with
    | (Except.error e, buf2, t2) => (Except.error e, buf2, t2)
    | (Except.ok i, buf2, t2) => Tree.updateChildrenLoop trig t2 buf2 (idxs ++ [i]) cs

/-- The children of a node as snapshotted by `begin_children_update`:
none for a shape, the single child for an operation, the list for a group. -/
def Tree.childrenOfKind : NodeKind → List Nat
  | NodeKind.shape _ => []
  | NodeKind.operation _ child => [child]
  | NodeKind.group children => children

/-- The direct children of the node at `parent` (empty when absent). -/
def Tree.childrenOf (t : Tree) (parent : Nat) : List Nat :=
  match t.nodes.get parent with
  | some node => Tree.childrenOfKind node.kind
  | none => []

/-- Source: `Tree::begin_children_update`: snapshot the target's children and
set their `owned` flags. -/
def Tree.begin_children_update (t : Tree) (parent : Nat) :
    Except NodeUpdateError (List Nat) × Tree :=
  match t.nodes.get parent with
  | none => (Except.error NodeUpdateError.invalidTarget, t)
  | some node =>
    let children := Tree.childrenOfKind node.kind
    (Except.ok children,
      children.foldl
        (fun acc c => ⟨acc.nodes.modify c (fun n => { n with owned := true })⟩) t)

/-- Source: `Tree::end_children_update`: clear the snapshot's flags; a child
whose `reused` flag is not set is removed when `removeUnused` is true. -/
def Tree.end_children_update (t : Tree) (children : List Nat) (removeUnused : Bool) : Tree :=
  children.foldl
    (fun acc child =>
      match acc.nodes.get child with
      | none => acc
      | some node =>
        if node.reused then
          ⟨acc.nodes.setVal child { node with owned := false, reused := false }⟩
        else
          let acc2 : Tree := ⟨acc.nodes.setVal child { node with owned := false }⟩
          if removeUnused then ⟨acc2.nodes.remove child⟩ else acc2)
    t

/-- Source: `Tree::update_node_inner`: resolve the update content into a
`NodeKind` (threading arena mutations, stopping at the first error), then build
the replacement node and overwrite the target slot in place. -/
def Tree.update_node_inner (trig : Trig) (t : Tree) (update : NodeUpdate) :
    Except NodeUpdateError NodeUpdateResponse × Tree :=
  let resolved : Except NodeUpdateError NodeKind × List Nat × Tree :=
    match update.content with
    | NodeContent.shape shape => (Except.ok (NodeKind.shape shape), [], t)
    | NodeContent.operation operation child =>
      match Tree.update_child trig t [] child with
      | (Except.error e, buf2, t2) => (Except.error e, buf2, t2)
      | (Except.ok ci, buf2, t2) => (Except.ok (NodeKind.operation operation ci), buf2, t2)
    | NodeContent.group newChildren =>
      match Tree.updateChildrenLoop trig t [] [] (newChildren.getD []) with
      | (Except.error e, buf2, t2) => (Except.error e, buf2, t2)
      | (Except.ok idxs, buf2, t2) => (Except.ok (NodeKind.group idxs), buf2, t2)
  match resolved with
  | (Except.error e, _, t2) => (Except.error e, t2)
  | (Except.ok kind, buf, t2) =>
    let newNode := t2.create_new_node trig kind
    (Except.ok ⟨buf⟩, ⟨t2.nodes.setVal update.target newNode⟩)

/-- Source: `Tree::update_node`: begin the children update (early return on an
invalid target), run the inner update, then always clean up, removing unused
children only when the inner update succeeded. -/
def Tree.update_node (trig : Trig) (t : Tree) (update : NodeUpdate) :
    Except NodeUpdateError NodeUpdateResponse × Tree :=
  match Tree.begin_children_update t update.target with
  | (Except.error e, t1) => (Except.error e, t1)
  | (Except.ok originalChildren, t1) =>
    let r := Tree.update_node_inner trig t1 update
    let removeUnused :=
      match r.1 with
      | Except.ok _ => true
      | Except.error _ => false
    (r.1, Tree.end_children_update r.2 originalChildren removeUnused)

/-- One renderer callback observed during `Tree::walk`.  The `WalkTree` trait
has four hooks; `on_aabb` is present in the interface but the call site in
`walk` is commented out, so no `onAabb` event is ever emitted. -/
inductive Event : Type where
  | onShape : Shape → Event
  | pushOp : Operation → Event
  | popOp : Operation → Event
  | onAabb : Aabb → Event
deriving DecidableEq, Repr

/-- The world-space box computed at the top of an ascending visit in
`Tree::walk`: transform the four cached corners by the current transform and
fold componentwise min/max starting from `(+inf, -inf)`. -/
def transformedAabb (m : Mat3) (box : Aabb) : Aabb :=
  let folded := box.corners.foldl
    (fun (mm : Vec2 × Vec2) corner =>
      let c := m.transform_point2 corner
      (mm.1.min c, mm.2.max c))
    (Vec2.INFINITY, Vec2.NEG_INFINITY)
  ⟨folded.1, folded.2⟩

/-- The `new_transform` match of the ascending operation branch of
`Tree::walk`. -/
def newTransformOf (trig : Trig) : Operation → Option Mat3
  | Operation.translate offset => some (Mat3.from_translation offset)
  | Operation.rotation angle => some (Mat3.from_rotation_z trig angle)
  | Operation.scale scale => some (Mat3.from_scale (Vec2.splat scale))
  | _ => none

/-- The descending-branch match of `Tree::walk` deciding whether to pop the
transform stack. -/
def isTransformOp : Operation → Bool
  | Operation.translate _ => true
  | Operation.rotation _ => true
  | Operation.scale _ => true
  | _ => false

/-- Source: the `while let Some((index, ascending)) = stack.pop()` loop of
`Tree::walk`, as an explicit machine over the traversal stack (head = top),
the transform stack (head = innermost), and the emitted callback trace.
`fuel` bounds the number of loop iterations; `none` models either running out
of fuel or one of the loop's `unwrap` panics (an index not in the arena, or an
empty transform stack). -/
def Tree.walkLoop (trig : Trig) (t : Tree) (viewport : Aabb) :
    Nat → List (Nat × Bool) → List Mat3 → List Event → Option (List Event)
  | _, [], _, events => some events
  | 0, _ :: _, _, _ => none
  | fuel + 1, (index, ascending) :: rest, transforms, events =>
    match t.nodes.get index with
    | none => none
    | some node =>
      match transforms with
      | [] => none
      | currentTransform :: _ =>
        if ascending then
          let childAabb := transformedAabb currentTransform node.aabb
          if !(viewport.is_intersecting childAabb) then
            Tree.walkLoop trig t viewport fuel rest transforms events
          else
            match node.kind with
            | NodeKind.shape shape =>
              Tree.walkLoop trig t viewport fuel rest transforms
                (events ++ [Event.onShape shape])
            | NodeKind.operation operation child =>
              let events2 := events ++ [Event.pushOp operation]
              let transforms2 :=
                match newTransformOf trig operation with
                | some newTransform => (currentTransform.mul newTransform) :: transforms
                | none => transforms
              Tree.walkLoop trig t viewport fuel
                ((child, true) :: (index, false) :: rest) transforms2 events2
            | NodeKind.group children =>
              Tree.walkLoop trig t viewport fuel
                (children.map (fun c => (c, true)) ++ rest) transforms events
        else
          match node.kind with
          | NodeKind.operation operation _ =>
            let transforms2 := if isTransformOp operation then transforms.tail else transforms
            Tree.walkLoop trig t viewport fuel rest transforms2
              (events ++ [Event.popOp operation])
          | _ => Tree.walkLoop trig t viewport fuel rest transforms events

/-- Source: `Tree::walk`: run the traversal machine from the root with the
identity transform. -/
def Tree.walk (trig : Trig) (t : Tree) (viewport : Aabb) (fuel : Nat) :
    Option (List Event) :=
  Tree.walkLoop trig t viewport fuel [(0, true)] [Mat3.default] []

namespace Slab

theorem get_eq_none_of_le {α : Type} (s : Slab α) (i : Nat)
    (h : s.entries.length ≤ i) : s.get i = none := by
  unfold Slab.get
  rw [List.getElem?_eq_none h]

theorem get?_append_single {α : Type} (l : List α) (e : α)
    (j : Nat) (h : j ≠ l.length) : (l ++ [e])[j]? = l[j]? := by
  by_cases hj : j < l.length
  · rw [List.getElem?_append_left hj]
  · rw [List.getElem?_eq_none (by simp; omega), List.getElem?_eq_none (by omega)]

/-- The index returned by `insert` was vacant before the call. -/
theorem insert_fresh {α : Type} (s : Slab α) (x : α) : s.get (s.insert x).1 = none := by
  unfold Slab.insert
  by_cases h : s.next = s.entries.length
  · rw [if_pos h]
    exact get_eq_none_of_le s s.next h.ge
  · rw [if_neg h]
    cases hg : s.entries[s.next]? with
    | none => exact get_eq_none_of_le s s.entries.length (Nat.le_refl _)
    | some e =>
      cases e with
      | vacant k =>
        unfold Slab.get
        rw [hg]
      | occupied a => exact get_eq_none_of_le s s.entries.length (Nat.le_refl _)

/-- After `insert`, the returned index holds the inserted value. -/
theorem get_insert_self {α : Type} (s : Slab α) (x : α) :
    (s.insert x).2.get (s.insert x).1 = some x := by
  unfold Slab.insert
  by_cases h : s.next = s.entries.length
  · rw [if_pos h]
    unfold Slab.get
    simp only [h]
    rw [List.getElem?_concat_length]
  · rw [if_neg h]
    cases hg : s.entries[s.next]? with
    | none =>
      unfold Slab.get
      simp only
      rw [List.getElem?_concat_length]
    | some e =>
      cases e with
      | vacant k =>
        unfold Slab.get
        have hlt : s.next < s.entries.length := by
          rcases List.getElem?_eq_some_iff.mp hg with ⟨hl, _⟩
          exact hl
        simp only
        rw [List.getElem?_set_eq_of_lt _ hlt]
      | occupied a =>
        unfold Slab.get
        simp only
        rw [List.getElem?_concat_length]

/-- `insert` does not disturb any other slot. -/
theorem get_insert_ne {α : Type} (s : Slab α) (x : α) (j : Nat)
    (h : j ≠ (s.insert x).1) : (s.insert x).2.get j = s.get j := by
  unfold Slab.insert at h ⊢
  by_cases hn : s.next = s.entries.length
  · rw [if_pos hn] at h ⊢
    unfold Slab.get
    simp only
    rw [get?_append_single _ _ _ (fun hc => h (by omega))]
  · rw [if_neg hn] at h ⊢
    cases hg : s.entries[s.next]? with
    | none =>
      simp only [hg] at h ⊢
      unfold Slab.get
      simp only
      rw [get?_append_single _ _ _ h]
    | some e =>
      cases e with
      | vacant k =>
        simp only [hg] at h ⊢
        unfold Slab.get
        simp only
        rw [List.getElem?_set_ne (fun hc => h hc.symm)]
      | occupied a =>
        simp only [hg] at h ⊢
        unfold Slab.get
        simp only
        rw [get?_append_single _ _ _ h]

/-- `modify` maps the slot value through `f` (no-op on vacant slots). -/
theorem get_modify_self {α : Type} (s : Slab α) (i : Nat) (f : α → α) :
    (s.modify i f).get i = (s.get i).map f := by
  unfold Slab.modify Slab.get
  cases hg : s.entries[i]? with
  | none => simp only [hg]; rfl
  | some e =>
    cases e with
    | vacant k => simp only [hg]; rfl
    | occupied a =>
      have hlt : i < s.entries.length := by
        rcases List.getElem?_eq_some_iff.mp hg with ⟨hl, _⟩
        exact hl
      simp only [hg]
      rw [List.getElem?_set_eq_of_lt _ hlt]
      rfl

/-- `modify` does not disturb other slots. -/
theorem get_modify_ne {α : Type} (s : Slab α) (i : Nat) (f : α → α) (j : Nat)
    (h : j ≠ i) : (s.modify i f).get j = s.get j := by
  unfold Slab.modify Slab.get
  cases hg : s.entries[i]? with
  | none => simp only [hg]
  | some e =>
    cases e with
    | vacant k => simp only [hg]
    | occupied a =>
      simp only [hg]
      rw [List.getElem?_set_ne (fun hc => h hc.symm)]

theorem get_setVal_self {α : Type} (s : Slab α) (i : Nat) (x : α) :
    (s.setVal i x).get i = (s.get i).map (fun _ => x) := get_modify_self s i _

theorem get_setVal_ne {α : Type} (s : Slab α) (i : Nat) (x : α) (j : Nat)
    (h : j ≠ i) : (s.setVal i x).get j = s.get j := get_modify_ne s i _ j h

/-- After `remove`, the slot is vacant. -/
theorem get_remove_self {α : Type} (s : Slab α) (i : Nat) :
    (s.remove i).get i = none := by
  unfold Slab.remove
  cases hg : s.entries[i]? with
  | none =>
    unfold Slab.get
    rw [hg]
  | some e =>
    cases e with
    | vacant k =>
      unfold Slab.get
      rw [hg]
    | occupied a =>
      have hlt : i < s.entries.length := by
        rcases List.getElem?_eq_some_iff.mp hg with ⟨hl, _⟩
        exact hl
      unfold Slab.get
      simp only
      rw [List.getElem?_set_eq_of_lt _ hlt]

/-- `remove` does not disturb other slots. -/
theorem get_remove_ne {α : Type} (s : Slab α) (i : Nat) (j : Nat)
    (h : j ≠ i) : (s.remove i).get j = s.get j := by
  unfold Slab.remove
  cases hg : s.entries[i]? with
  | none => rfl
  | some e =>
    cases e with
    | vacant k => rfl
    | occupied a =>
      unfold Slab.get
      simp only
      rw [List.getElem?_set_ne (fun hc => h hc.symm)]

end Slab

/-! Concrete fixtures used by witnesses and counterexamples. -/

/-- A concrete `Trig` implementation for closed evaluations (no claim depends
on trigonometric values). -/
def trigModel : Trig := ⟨fun _ => F32.fin 1, fun _ => F32.fin 0⟩

/-- A tree whose root was replaced by `Shape::Circle { radius: 1 }`. -/
def exCircleTree : Tree :=
  (Tree.update_node trigModel Tree.new ⟨0, NodeContent.shape (Shape.circle (F32.fin 1))⟩).2

/-- A tree whose root was replaced by `Shape::Empty` via the update engine
(so its cached AABB is `INVALID`). -/
def exEmptyTree : Tree :=
  (Tree.update_node trigModel Tree.new ⟨0, NodeContent.shape Shape.empty⟩).2

/-- A viewport containing the origin. -/
def exViewport : Aabb := ⟨⟨F32.fin (-2), F32.fin (-2)⟩, ⟨F32.fin 2, F32.fin 2⟩⟩

/-- A viewport far from the origin. -/
def exFarViewport : Aabb := ⟨⟨F32.fin 5, F32.fin 5⟩, ⟨F32.fin 6, F32.fin 6⟩⟩

/-! Claim C3: the fresh tree. -/

/-- Claim C3 counterexample: the single node of a fresh tree has cached AABB
`Aabb::default()` (all zeroes), not `INVALID` as the claim states
(`Tree::new` inserts `Node::new(empty, Aabb::default())`). -/
theorem C3_counterexample :
    (Tree.new.nodes.get 0).map Node.aabb = some Aabb.default ∧
      Aabb.default ≠ Aabb.INVALID := by
  constructor
  · rfl
  · decide

/-- Claim C3 (amended): a freshly created tree contains exactly one node; that
node has id 0, kind `Shape(Empty)`, and cached AABB `Aabb::default()`
(min = (0,0), max = (0,0)), which differs from `INVALID`. -/
theorem C3_fresh_tree :
    Tree.new.nodes.entries.length = 1 ∧
    Tree.new.nodes.get 0 = some (Node.new (NodeKind.shape Shape.empty) Aabb.default) ∧
    (∀ j, j ≠ 0 → Tree.new.nodes.get j = none) ∧
    Aabb.default = ⟨⟨F32.fin 0, F32.fin 0⟩, ⟨F32.fin 0, F32.fin 0⟩⟩ := by
  refine ⟨rfl, rfl, ?_, rfl⟩
  intro j hj
  apply Slab.get_eq_none_of_le
  have h1 : Tree.new.nodes.entries.length = 1 := rfl
  omega

/-- Claim C3 witness: the amended theorem applied at the concrete index 5. -/
theorem C3_witness : Tree.new.nodes.get 5 = none :=
  C3_fresh_tree.2.2.1 5 (by decide)

/-! Claim C7: viewport culling skips a node and its whole subtree. -/

/-- Claim C7: if the node at `i` is first-visited with current transform `T`
and its world-space AABB (the min/max fold of its four cached corners mapped
through `T`, exactly as computed at the top of the loop) does not intersect
the viewport, the iteration emits no callback and schedules nothing: the
machine continues on the remaining stack unchanged.  Since descendants are
only ever scheduled by their parent's first visit, the renderer receives no
callback for the node or for anything below it. -/
theorem C7_culling_skips_subtree (trig : Trig) (t : Tree) (viewport : Aabb)
    (i : Nat) (n : Node) (T : Mat3) (hn : t.nodes.get i = some n)
    (hcull : viewport.is_intersecting (transformedAabb T n.aabb) = false) :
    ∀ fuel rest ts events,
      Tree.walkLoop trig t viewport (fuel + 1) ((i, true) :: rest) (T :: ts) events =
        Tree.walkLoop trig t viewport fuel rest (T :: ts) events := by
  intro fuel rest ts events
  conv_lhs => rw [Tree.walkLoop.eq_def]
  simp [hn, hcull]

/-- Claim C7 witness: the fresh tree's root box `(0,0)..(0,0)` does not meet
the viewport `(5,5)..(6,6)`, so the first iteration of the walk skips it. -/
theorem C7_witness :
    Tree.walkLoop trigModel Tree.new exFarViewport 1 [(0, true)] [Mat3.default] [] =
      Tree.walkLoop trigModel Tree.new exFarViewport 0 [] [Mat3.default] [] :=
  C7_culling_skips_subtree trigModel Tree.new exFarViewport 0
    (Node.new (NodeKind.shape Shape.empty) Aabb.default) Mat3.default (by rfl)
    (by with_unfolding_all decide) 0 [] [] []

/-! Claim C9: the on_aabb debug hook. -/

/-- Whether an event is the `on_aabb` debug callback. -/
def Event.isAabbEvent : Event → Bool
  | Event.onAabb _ => true
  | _ => false

/-- Claim C9 counterexample: walking a tree whose root is a circle inside the
viewport produces the trace `[on_shape(circle 1)]`: the root passed culling and
was dispatched, yet no `on_aabb` callback occurred (the call site in `walk` is
commented out). -/
theorem C9_counterexample :
    Tree.walk trigModel exCircleTree exViewport 2 =
      some [Event.onShape (Shape.circle (F32.fin 1))] ∧
    ([Event.onShape (Shape.circle (F32.fin 1))].all fun e => !e.isAabbEvent) = true := by
  constructor
  · with_unfolding_all decide
  · decide

/-- Claim C9 (amended): the driver never calls the renderer's `on_aabb` hook:
starting from a trace without `on_aabb` events, every completed walk run ends
with a trace without `on_aabb` events (the hook exists in the `WalkTree`
interface but its call site in `walk` is commented out). -/
theorem C9_never_on_aabb (trig : Trig) (t : Tree) (viewport : Aabb) :
    ∀ (fuel : Nat) (stack : List (Nat × Bool)) (transforms : List Mat3)
      (events result : List Event),
      (∀ e ∈ events, e.isAabbEvent = false) →
      Tree.walkLoop trig t viewport fuel stack transforms events = some result →
      ∀ e ∈ result, e.isAabbEvent = false := by
  intro fuel
  induction fuel with
  | zero =>
    intro stack transforms events result hev hrun
    cases stack with
    | nil =>
      simp only [Tree.walkLoop, Option.some.injEq] at hrun
      exact hrun ▸ hev
    | cons hd tl => simp [Tree.walkLoop] at hrun
  | succ fuel ih =>
    intro stack transforms events result hev hrun
    cases stack with
    | nil =>
      simp only [Tree.walkLoop, Option.some.injEq] at hrun
      exact hrun ▸ hev
    | cons hd tl =>
      obtain ⟨index, ascending⟩ := hd
      rw [Tree.walkLoop.eq_def] at hrun
      cases hnode : t.nodes.get index with
      | none => simp [hnode] at hrun
      | some node =>
        simp only [hnode] at hrun
        cases transforms with
        | nil => simp at hrun
        | cons T ts2 =>
          have hextend : ∀ (e0 : Event), e0.isAabbEvent = false →
              ∀ e ∈ events ++ [e0], e.isAabbEvent = false := by
            intro e0 he0 e he
            rcases List.mem_append.mp he with h | h
            · exact hev e h
            · rcases List.mem_singleton.mp h with rfl
              exact he0
          cases ascending with
          | true =>
            simp only at hrun
            cases hI : viewport.is_intersecting (transformedAabb T node.aabb) with
            | false =>
              simp only [hI, Bool.not_false, if_true] at hrun
              exact ih _ _ _ _ hev hrun
            | true =>
              simp only [hI, Bool.not_true, if_false] at hrun
              cases hkind : node.kind with
              | shape s =>
                rw [hkind] at hrun
                exact ih _ _ _ _ (hextend (Event.onShape s) rfl) hrun
              | operation op child =>
                rw [hkind] at hrun
                exact ih _ _ _ _ (hextend (Event.pushOp op) rfl) hrun
              | group children =>
                rw [hkind] at hrun
                exact ih _ _ _ _ hev hrun
          | false =>
            simp only at hrun
            cases hkind : node.kind with
            | shape s =>
              rw [hkind] at hrun
              exact ih _ _ _ _ hev hrun
            | operation op child =>
              rw [hkind] at hrun
              exact ih _ _ _ _ (hextend (Event.popOp op) rfl) hrun
            | group children =>
              rw [hkind] at hrun
              exact ih _ _ _ _ hev hrun

/-- Claim C9 witness: the amended theorem applied to the concrete circle walk,
showing its single trace event is not an `on_aabb`. -/
theorem C9_witness : (Event.onShape (Shape.circle (F32.fin 1))).isAabbEvent = false :=
  C9_never_on_aabb trigModel exCircleTree exViewport 2 [(0, true)] [Mat3.default] []
    [Event.onShape (Shape.circle (F32.fin 1))]
    (fun e he => absurd he (List.not_mem_nil e))
    (by with_unfolding_all decide)
    (Event.onShape (Shape.circle (F32.fin 1))) (by simp)

/-! Claim C10: `INVALID` annihilates the intersection test. -/

theorem F32.lt_inf_left (x : F32) : F32.lt F32.inf x = false := by
  cases x <;> rfl

theorem F32.lt_ninf_right (x : F32) : F32.lt x F32.ninf = false := by
  cases x <;> rfl

/-- `INVALID` on the left never intersects. -/
theorem Aabb.is_intersecting_INVALID_left (b : Aabb) :
    Aabb.is_intersecting Aabb.INVALID b = false := by
  unfold Aabb.is_intersecting
  rw [show Aabb.INVALID.min.x = F32.inf from rfl, F32.lt_inf_left]
  rfl

/-- `INVALID` on the right never intersects. -/
theorem Aabb.is_intersecting_INVALID_right (b : Aabb) :
    Aabb.is_intersecting b Aabb.INVALID = false := by
  unfold Aabb.is_intersecting
  rw [show Aabb.INVALID.max.x = F32.ninf from rfl, F32.lt_ninf_right]
  rfl

/-- Claim C10: `INVALID` is an annihilator for `is_intersecting` on both
sides; every node built by `create_new_node` with kind `Shape(Empty)` has
cached AABB `INVALID`; and a node whose cached AABB is `INVALID`, first
visited under the identity transform, is always culled: the walk iteration
emits no callback (in particular no `on_shape`) and schedules nothing. -/
theorem C10_INVALID_annihilator (trig : Trig) (t : Tree) :
    (∀ b : Aabb, Aabb.is_intersecting Aabb.INVALID b = false) ∧
    (∀ b : Aabb, Aabb.is_intersecting b Aabb.INVALID = false) ∧
    (t.create_new_node trig (NodeKind.shape Shape.empty)).aabb = Aabb.INVALID ∧
    (∀ (viewport : Aabb) (i : Nat) (n : Node),
      t.nodes.get i = some n → n.aabb = Aabb.INVALID →
      ∀ fuel rest ts events,
        Tree.walkLoop trig t viewport (fuel + 1) ((i, true) :: rest)
            (Mat3.default :: ts) events =
          Tree.walkLoop trig t viewport fuel rest (Mat3.default :: ts) events) := by
  refine ⟨Aabb.is_intersecting_INVALID_left, Aabb.is_intersecting_INVALID_right, rfl, ?_⟩
  intro viewport i n hn haabb fuel rest ts events
  have htrans : transformedAabb Mat3.default n.aabb = Aabb.INVALID := by
    rw [haabb]
    with_unfolding_all decide
  have hcull : viewport.is_intersecting (transformedAabb Mat3.default n.aabb) = false := by
    rw [htrans]
    exact Aabb.is_intersecting_INVALID_right viewport
  conv_lhs => rw [Tree.walkLoop.eq_def]
  simp [hn, hcull]

/-- Claim C10 witness: the walk skips the `Shape(Empty)` root (cached AABB
`INVALID`) of a concrete tree even for a viewport containing the origin. -/
theorem C10_witness :
    Tree.walkLoop trigModel exEmptyTree exViewport 1 [(0, true)] [Mat3.default] [] =
      Tree.walkLoop trigModel exEmptyTree exViewport 0 [] [Mat3.default] [] :=
  (C10_INVALID_annihilator trigModel exEmptyTree).2.2.2 exViewport 0
    (Node.new (NodeKind.shape Shape.empty) Aabb.INVALID)
    (by with_unfolding_all decide) rfl 0 [] [] []

/-! Update-engine machinery: structural invariants and run lemmas. -/

/-- Spec invariant 5: outside an `update_node` call every node has both
transient flags clear. -/
def Tree.flagsClear (t : Tree) : Prop :=
  ∀ i n, t.nodes.get i = some n → n.owned = false ∧ n.reused = false

/-- Every id in the list refers to an allocated node (spec invariant 2,
restricted to the list at hand). -/
def Tree.allAllocated (t : Tree) (l : List Nat) : Prop :=
  ∀ c ∈ l, (t.nodes.get c).isSome

/-- The ids named by `KeepIndex` entries of a child-update list, in order. -/
def keptIdsOfList (cs : List ChildUpdate) : List Nat :=
  cs.filterMap fun cu =>
    match cu with
    | ChildUpdate.keepIndex k => some k
    | ChildUpdate.newNode _ => none

/-- The ids named by `KeepIndex` entries of an update content. -/
def NodeContent.keptIds : NodeContent → List Nat
  | NodeContent.shape _ => []
  | NodeContent.operation _ (ChildUpdate.keepIndex k) => [k]
  | NodeContent.operation _ (ChildUpdate.newNode _) => []
  | NodeContent.group newChildren => keptIdsOfList (newChildren.getD [])

mutual

/-- `AllocOrder nn l`: `l` is an id list laid out the way `add_new_node`
records a `NewNode` subtree: the ids of each child subtree first, then the
parent's id last. -/
inductive AllocOrder : NewNode → List Nat → Prop where
  | shape : ∀ (s : Shape) (i : Nat), AllocOrder (NewNode.shape s) [i]
  | operation : ∀ (op : Operation) (c : NewNode) (lc : List Nat) (i : Nat),
      AllocOrder c lc → AllocOrder (NewNode.operation op c) (lc ++ [i])
  | group : ∀ (cs : List NewNode) (ls : List (List Nat)) (i : Nat),
      AllocOrderList cs ls → AllocOrder (NewNode.group cs) (ls.join ++ [i])

/-- Chunk-wise `AllocOrder` for the children of a `NewNode::Group`. -/
inductive AllocOrderList : List NewNode → List (List Nat) → Prop where
  | nil : AllocOrderList [] []
  | cons : ∀ c cs l ls, AllocOrder c l → AllocOrderList cs ls →
      AllocOrderList (c :: cs) (l :: ls)

end

/-- `ResolveList cs ls rs`: resolving the child updates `cs` produced, per
entry, the freshly recorded id chunk (empty for `KeepIndex`) and the resolved
child id (the kept id, or the subtree root id, which is the last of its
chunk). -/
inductive ResolveList : List ChildUpdate → List (List Nat) → List Nat → Prop where
  | nil : ResolveList [] [] []
  | keep : ∀ k cs ls rs, ResolveList cs ls rs →
      ResolveList (ChildUpdate.keepIndex k :: cs) ([] :: ls) (k :: rs)
  | new : ∀ nn body i cs ls rs, AllocOrder nn (body ++ [i]) → ResolveList cs ls rs →
      ResolveList (ChildUpdate.newNode nn :: cs) ((body ++ [i]) :: ls) (i :: rs)

/-- Mid-update state invariant, relative to the pre-call tree `pre`, the
target's snapshotted children, the ids kept so far, and the ids freshly
inserted so far: pre-existing nodes keep their kind and AABB, their `owned`
flag marks exactly the snapshotted children and their `reused` flag exactly
the kept ids; every other allocated node is a freshly inserted one with clear
flags. -/
structure MidInv (pre t : Tree) (children kept newIds : List Nat) : Prop where
  oldNodes : ∀ j n, pre.nodes.get j = some n → ∃ n2, t.nodes.get j = some n2 ∧
      n2.kind = n.kind ∧ n2.aabb = n.aabb ∧
      n2.owned = decide (j ∈ children) ∧ n2.reused = decide (j ∈ kept)
  newNodes : ∀ j n2, t.nodes.get j = some n2 → pre.nodes.get j = none →
      j ∈ newIds ∧ n2.owned = false ∧ n2.reused = false
  newFresh : ∀ j ∈ newIds, pre.nodes.get j = none ∧ (t.nodes.get j).isSome
  newNodup : newIds.Nodup
  keptSub : kept ⊆ children

/-- A node built by `create_new_node` has clear flags. -/
theorem create_new_node_flags (trig : Trig) (t : Tree) (kind : NodeKind) :
    (t.create_new_node trig kind).owned = false ∧
      (t.create_new_node trig kind).reused = false :=
  ⟨rfl, rfl⟩

/-- A node built by `create_new_node` has the requested kind. -/
theorem create_new_node_kind (trig : Trig) (t : Tree) (kind : NodeKind) :
    (t.create_new_node trig kind).kind = kind := rfl

/-- Behaviour of the shared insertion tail of `add_new_node`. -/
theorem insertNew_spec (trig : Trig) (t : Tree) (buf : List Nat) (kind : NodeKind) :
    (Tree.insertNew trig t buf kind).2.1 = buf ++ [(Tree.insertNew trig t buf kind).1] ∧
    t.nodes.get (Tree.insertNew trig t buf kind).1 = none ∧
    (Tree.insertNew trig t buf kind).2.2.nodes.get (Tree.insertNew trig t buf kind).1 =
      some (t.create_new_node trig kind) ∧
    (∀ j, j ≠ (Tree.insertNew trig t buf kind).1 →
      (Tree.insertNew trig t buf kind).2.2.nodes.get j = t.nodes.get j) := by
  refine ⟨rfl, ?_, ?_, ?_⟩
  · exact Slab.insert_fresh t.nodes _
  · exact Slab.get_insert_self t.nodes _
  · intro j hj
    exact Slab.get_insert_ne t.nodes _ j hj

/-- `NewChunk t t2 fresh`: passing from arena `t` to `t2` added exactly the
(previously vacant, pairwise distinct) ids `fresh`, all carrying clear flags,
and left every pre-existing node untouched. -/
def NewChunk (t t2 : Tree) (fresh : List Nat) : Prop :=
  fresh.Nodup ∧
  (∀ j ∈ fresh, t.nodes.get j = none) ∧
  (∀ j n, t.nodes.get j = some n → t2.nodes.get j = some n) ∧
  (∀ j n2, t2.nodes.get j = some n2 → t.nodes.get j = some n2 ∨
      (j ∈ fresh ∧ n2.owned = false ∧ n2.reused = false)) ∧
  (∀ j ∈ fresh, (t2.nodes.get j).isSome)

theorem NewChunk.refl (t : Tree) : NewChunk t t [] := by
  refine ⟨List.nodup_nil, ?_, ?_, ?_, ?_⟩
  · intro j hj; cases hj
  · intro j n h; exact h
  · intro j n2 h; exact Or.inl h
  · intro j hj; cases hj

theorem NewChunk.comp {t t2 t3 : Tree} {f1 f2 : List Nat}
    (h1 : NewChunk t t2 f1) (h2 : NewChunk t2 t3 f2) : NewChunk t t3 (f1 ++ f2) := by
  obtain ⟨nd1, fr1, pres1, rev1, mem1⟩ := h1
  obtain ⟨nd2, fr2, pres2, rev2, mem2⟩ := h2
  refine ⟨?_, ?_, ?_, ?_, ?_⟩
  · refine List.Nodup.append nd1 nd2 ?_
    intro j hj1 hj2
    have hnone := fr2 j hj2
    have hsome := mem1 j hj1
    cases hg : t2.nodes.get j with
    | none => rw [hg] at hsome; cases hsome
    | some n => rw [hg] at hnone; cases hnone
  · intro j hj
    rcases List.mem_append.mp hj with h | h
    · exact fr1 j h
    · cases hg : t.nodes.get j with
      | none => rfl
      | some n =>
        have := pres1 j n hg
        rw [fr2 j h] at this
        cases this
  · intro j n h
    exact pres2 j n (pres1 j n h)
  · intro j n2 h
    rcases rev2 j n2 h with h2a | h2a
    · rcases rev1 j n2 h2a with h1a | h1a
      · exact Or.inl h1a
      · exact Or.inr ⟨List.mem_append.mpr (Or.inl h1a.1), h1a.2⟩
    · exact Or.inr ⟨List.mem_append.mpr (Or.inr h2a.1), h2a.2⟩
  · intro j hj
    rcases List.mem_append.mp hj with h | h
    · cases hg : t2.nodes.get j with
      | none =>
        have := mem1 j h
        rw [hg] at this
        cases this
      | some n =>
        rw [pres2 j n hg]
        rfl
    · exact mem2 j h

/-- The single-insert `NewChunk` produced by `insertNew`. -/
theorem insertNew_chunk (trig : Trig) (t : Tree) (buf : List Nat) (kind : NodeKind)
    (idx : Nat) (buf2 : List Nat) (t2 : Tree)
    (h : Tree.insertNew trig t buf kind = (idx, buf2, t2)) :
    buf2 = buf ++ [idx] ∧ NewChunk t t2 [idx] := by
  have spec := insertNew_spec trig t buf kind
  rw [h] at spec
  obtain ⟨hbuf, hfresh, hself, hother⟩ := spec
  refine ⟨hbuf, List.nodup_singleton idx, ?_, ?_, ?_, ?_⟩
  · intro j hj
    rcases List.mem_singleton.mp hj with rfl
    exact hfresh
  · intro j n hg
    have hne : j ≠ idx := by
      intro hc
      rw [hc, hfresh] at hg
      cases hg
    rw [hother j hne]
    exact hg
  · intro j n2 hg
    by_cases hj : j = idx
    · subst hj
      rw [hself] at hg
      rcases Option.some.injEq _ _ ▸ hg with rfl
      have hf := create_new_node_flags trig t kind
      injection hg with hg2
      exact Or.inr ⟨List.mem_singleton.mpr rfl, hg2 ▸ hf.1, hg2 ▸ hf.2⟩
    · rw [hother j hj] at hg
      exact Or.inl hg
  · intro j hj
    rcases List.mem_singleton.mp hj with rfl
    rw [hself]
    rfl

mutual

/-- Run specification for `add_new_node`: the response buffer is extended by a
block of fresh distinct ids laid out children-first with the subtree root id
last, and the arena changes by exactly that block of clear-flagged nodes. -/
theorem add_new_node_spec (trig : Trig) :
    ∀ (nn : NewNode) (t : Tree) (buf : List Nat) (idx : Nat) (buf2 : List Nat) (t2 : Tree),
      Tree.add_new_node trig t buf nn = (idx, buf2, t2) →
      ∃ fresh body, buf2 = buf ++ fresh ∧ fresh = body ++ [idx] ∧
        AllocOrder nn fresh ∧ NewChunk t t2 fresh
  | NewNode.shape s, t, buf, idx, buf2, t2 => by
    intro h
    simp only [Tree.add_new_node] at h
    obtain ⟨hbuf, hchunk⟩ := insertNew_chunk trig t buf (NodeKind.shape s) idx buf2 t2 h
    exact ⟨[idx], [], hbuf, rfl, AllocOrder.shape s idx, hchunk⟩
  | NewNode.operation op c, t, buf, idx, buf2, t2 => by
    intro h
    simp only [Tree.add_new_node] at h
    rcases hadd : Tree.add_new_node trig t buf c with ⟨i1, b1, t1⟩
    rw [hadd] at h
    obtain ⟨fresh1, body1, hb1, hshape1, horder1, hchunk1⟩ :=
      add_new_node_spec trig c t buf i1 b1 t1 hadd
    obtain ⟨hbuf, hchunk2⟩ :=
      insertNew_chunk trig t1 b1 (NodeKind.operation op i1) idx buf2 t2 h
    refine ⟨fresh1 ++ [idx], fresh1, ?_, rfl, ?_, ?_⟩
    · rw [hbuf, hb1, List.append_assoc]
    · exact AllocOrder.operation op c fresh1 idx horder1
    · exact NewChunk.comp hchunk1 hchunk2
  | NewNode.group cs, t, buf, idx, buf2, t2 => by
    intro h
    simp only [Tree.add_new_node] at h
    rcases hadd : Tree.add_new_nodes trig t buf cs with ⟨is1, b1, t1⟩
    rw [hadd] at h
    obtain ⟨ls, hb1, horder1, hchunk1⟩ :=
      add_new_nodes_spec trig cs t buf is1 b1 t1 hadd
    obtain ⟨hbuf, hchunk2⟩ :=
      insertNew_chunk trig t1 b1 (NodeKind.group is1) idx buf2 t2 h
    refine ⟨ls.join ++ [idx], ls.join, ?_, rfl, ?_, ?_⟩
    · rw [hbuf, hb1, List.append_assoc]
    · exact AllocOrder.group cs ls idx horder1
    · exact NewChunk.comp hchunk1 hchunk2

/-- Run specification for the child-list fold of `add_new_node`. -/
theorem add_new_nodes_spec (trig : Trig) :
    ∀ (cs : List NewNode) (t : Tree) (buf : List Nat) (idxs : List Nat)
      (buf2 : List Nat) (t2 : Tree),
      Tree.add_new_nodes trig t buf cs = (idxs, buf2, t2) →
      ∃ ls, buf2 = buf ++ ls.join ∧ AllocOrderList cs ls ∧ NewChunk t t2 ls.join
  | [], t, buf, idxs, buf2, t2 => by
    intro h
    simp only [Tree.add_new_nodes, Prod.mk.injEq] at h
    obtain ⟨h1, h2, h3⟩ := h
    exact ⟨[], by simp [h2], AllocOrderList.nil, h3 ▸ NewChunk.refl t⟩
  | c :: cs, t, buf, idxs, buf2, t2 => by
    intro h
    simp only [Tree.add_new_nodes] at h
    rcases hadd : Tree.add_new_node trig t buf c with ⟨i1, b1, t1⟩
    rw [hadd] at h
    rcases hadds : Tree.add_new_nodes trig t1 b1 cs with ⟨is2, b2, t3⟩
    rw [hadds] at h
    obtain ⟨fresh1, body1, hb1, hshape1, horder1, hchunk1⟩ :=
      add_new_node_spec trig c t buf i1 b1 t1 hadd
    obtain ⟨ls2, hb2, horder2, hchunk2⟩ :=
      add_new_nodes_spec trig cs t1 b1 is2 b2 t3 hadds
    have hbuf2 : buf2 = b2 := (congrArg (fun p => p.2.1) h).symm
    have ht2 : t2 = t3 := (congrArg (fun p => p.2.2) h).symm
    refine ⟨fresh1 :: ls2, ?_, AllocOrderList.cons c cs fresh1 ls2 horder1 horder2, ?_⟩
    · rw [hbuf2, hb2, hb1]
      simp [List.append_assoc]
    · rw [ht2]
      simpa using NewChunk.comp hchunk1 hchunk2

end

theorem keptIdsOfList_cons (cu : ChildUpdate) (cs : List ChildUpdate) :
    keptIdsOfList (cu :: cs) = keptIdsOfList [cu] ++ keptIdsOfList cs := by
  cases cu <;> simp [keptIdsOfList]

/-- Adding a fresh chunk preserves the mid-update invariant. -/
theorem MidInv.addChunk {pre t t2 : Tree} {children kept newIds fresh : List Nat}
    (hinv : MidInv pre t children kept newIds) (hchunk : NewChunk t t2 fresh) :
    MidInv pre t2 children kept (newIds ++ fresh) := by
  obtain ⟨nd, fr, pres, rev, mem⟩ := hchunk
  refine ⟨?_, ?_, ?_, ?_, hinv.keptSub⟩
  · intro j n hj
    obtain ⟨n2, hg, hrest⟩ := hinv.oldNodes j n hj
    exact ⟨n2, pres j n2 hg, hrest⟩
  · intro j n2 hg hnone
    rcases rev j n2 hg with h | h
    · obtain ⟨hmem, hflags⟩ := hinv.newNodes j n2 h hnone
      exact ⟨List.mem_append.mpr (Or.inl hmem), hflags⟩
    · exact ⟨List.mem_append.mpr (Or.inr h.1), h.2⟩
  · intro j hj
    rcases List.mem_append.mp hj with h | h
    · obtain ⟨hnone, hsome⟩ := hinv.newFresh j h
      refine ⟨hnone, ?_⟩
      cases hg : t.nodes.get j with
      | none => rw [hg] at hsome; cases hsome
      | some n => rw [pres j n hg]; rfl
    · refine ⟨?_, mem j h⟩
      cases hp : pre.nodes.get j with
      | none => rfl
      | some n =>
        obtain ⟨n2, hg, _⟩ := hinv.oldNodes j n hp
        rw [fr j h] at hg
        cases hg
  · refine List.Nodup.append hinv.newNodup nd ?_
    intro j hj1 hj2
    have hsome := (hinv.newFresh j hj1).2
    have hnone := fr j hj2
    rw [hnone] at hsome
    cases hsome

/-- A successful `KeepIndex` resolution: the referenced node is a snapshotted
child not yet kept, and marking it `reused` re-establishes the invariant. -/
theorem MidInv.keepStep {pre t : Tree} {children kept newIds : List Nat} {k : Nat}
    {node : Node} (hinv : MidInv pre t children kept newIds)
    (hget : t.nodes.get k = some node)
    (howned : node.owned = true) (hreused : node.reused = false) :
    k ∈ children ∧ k ∉ kept ∧
    MidInv pre (⟨t.nodes.modify k (fun n => { n with reused := true })⟩ : Tree)
      children (kept ++ [k]) newIds := by
  have hpre : ∃ n, pre.nodes.get k = some n := by
    cases hp : pre.nodes.get k with
    | some n => exact ⟨n, rfl⟩
    | none =>
      obtain ⟨_, hflag, _⟩ := hinv.newNodes k node hget hp
      rw [hflag] at howned
      cases howned
  obtain ⟨n0, hpre0⟩ := hpre
  obtain ⟨n2, hg2, hkind, haabb, hown2, hreu2⟩ := hinv.oldNodes k n0 hpre0
  rw [hget] at hg2
  injection hg2 with hg2
  subst hg2
  have hkc : k ∈ children := by
    rw [howned] at hown2
    exact of_decide_eq_true hown2.symm
  have hkk : k ∉ kept := by
    intro hc
    rw [hreused] at hreu2
    exact (of_decide_eq_false hreu2.symm) hc
  refine ⟨hkc, hkk, ?_, ?_, ?_, hinv.newNodup, ?_⟩
  · intro j n hj
    by_cases hjk : j = k
    · subst hjk
      rw [hpre0] at hj
      injection hj with hj
      subst hj
      refine ⟨{ node with reused := true }, ?_, hkind, haabb, ?_, ?_⟩
      · rw [Slab.get_modify_self, hget]
        rfl
      · simpa using hown2
      · simp [List.mem_append, hkc]
    · obtain ⟨n2, hg, hkind2, haabb2, hown, hreu⟩ := hinv.oldNodes j n hj
      refine ⟨n2, ?_, hkind2, haabb2, hown, ?_⟩
      · rw [Slab.get_modify_ne _ _ _ _ hjk]
        exact hg
      · rw [hreu]
        exact decide_eq_decide.mpr (by simp [List.mem_append, hjk])
  · intro j n2 hg hnone
    have hjk : j ≠ k := by
      intro hc
      subst hc
      rw [hpre0] at hnone
      cases hnone
    rw [Slab.get_modify_ne _ _ _ _ hjk] at hg
    exact hinv.newNodes j n2 hg hnone
  · intro j hj
    obtain ⟨hnone, hsome⟩ := hinv.newFresh j hj
    refine ⟨hnone, ?_⟩
    by_cases hjk : j = k
    · subst hjk
      rw [Slab.get_modify_self, hget]
      rfl
    · rw [Slab.get_modify_ne _ _ _ _ hjk]
      exact hsome
  · intro j hj
    rcases List.mem_append.mp hj with h | h
    · exact hinv.keptSub h
    · rcases List.mem_singleton.mp h with rfl
      exact hkc

/-- A failing `update_child` leaves the buffer and the arena untouched. -/
theorem update_child_err_spec (trig : Trig) (t : Tree) (buf : List Nat)
    (cu : ChildUpdate) (e : NodeUpdateError) (buf2 : List Nat) (t2 : Tree)
    (hrun : Tree.update_child trig t buf cu = (Except.error e, buf2, t2)) :
    buf2 = buf ∧ t2 = t := by
  cases cu with
  | keepIndex k =>
    simp only [Tree.update_child] at hrun
    cases hg : t.nodes.get k with
    | none =>
      rw [hg] at hrun
      exact ⟨(congrArg (fun p => p.2.1) hrun).symm, (congrArg (fun p => p.2.2) hrun).symm⟩
    | some node =>
      rw [hg] at hrun
      by_cases ho : node.owned
      · simp only [ho, Bool.not_true, if_false, Bool.false_eq_true] at hrun
        by_cases hr : node.reused
        · simp only [hr, if_true] at hrun
          exact ⟨(congrArg (fun p => p.2.1) hrun).symm,
                 (congrArg (fun p => p.2.2) hrun).symm⟩
        · simp only [hr, if_false, Bool.false_eq_true] at hrun
          cases congrArg (fun p => p.1) hrun
      · simp only [ho, Bool.not_false, if_true] at hrun
        exact ⟨(congrArg (fun p => p.2.1) hrun).symm,
               (congrArg (fun p => p.2.2) hrun).symm⟩
  | newNode nn =>
    simp only [Tree.update_child] at hrun
    cases congrArg (fun p => p.1) hrun

/-- A successful `update_child` resolution extends the buffer by a fresh chunk
(empty for `KeepIndex`) and re-establishes the invariant. -/
theorem update_child_ok_spec (trig : Trig) (pre : Tree) (children : List Nat)
    (kept newIds : List Nat) (t : Tree) (buf : List Nat) (cu : ChildUpdate)
    (i : Nat) (buf2 : List Nat) (t2 : Tree)
    (hinv : MidInv pre t children kept newIds)
    (hrun : Tree.update_child trig t buf cu = (Except.ok i, buf2, t2)) :
    ∃ chunk, buf2 = buf ++ chunk ∧
      MidInv pre t2 children (kept ++ keptIdsOfList [cu]) (newIds ++ chunk) ∧
      (∀ (cs : List ChildUpdate) (ls : List (List Nat)) (rs : List Nat),
        ResolveList cs ls rs → ResolveList (cu :: cs) (chunk :: ls) (i :: rs)) := by
  cases cu with
  | keepIndex k =>
    simp only [Tree.update_child] at hrun
    cases hg : t.nodes.get k with
    | none =>
      rw [hg] at hrun
      cases congrArg (fun p => p.1) hrun
    | some node =>
      rw [hg] at hrun
      by_cases ho : node.owned
      · simp only [ho, Bool.not_true, if_false, Bool.false_eq_true] at hrun
        by_cases hr : node.reused
        · simp only [hr, if_true] at hrun
          cases congrArg (fun p => p.1) hrun
        · simp only [hr, if_false, Bool.false_eq_true] at hrun
          have hik : i = k := by
            have h1 := congrArg (fun p => p.1) hrun
            simp only [Except.ok.injEq] at h1
            exact h1.symm
          subst hik
          have hbuf : buf2 = buf := (congrArg (fun p => p.2.1) hrun).symm
          have ht2 : t2 = (⟨t.nodes.modify i fun n => { n with reused := true }⟩ : Tree) :=
            (congrArg (fun p => p.2.2) hrun).symm
          obtain ⟨hkc, hkk, hinv2⟩ :=
            hinv.keepStep hg ho (Bool.not_eq_true node.reused ▸ hr)
          refine ⟨[], by simpa using hbuf, ?_, ?_⟩
          · rw [ht2]
            simpa [keptIdsOfList] using hinv2
          · intro cs ls rs htail
            exact ResolveList.keep i cs ls rs htail
      · simp only [ho, Bool.not_false, if_true] at hrun
        cases congrArg (fun p => p.1) hrun
  | newNode nn =>
    simp only [Tree.update_child] at hrun
    rcases hadd : Tree.add_new_node trig t buf nn with ⟨i1, b1, t1⟩
    rw [hadd] at hrun
    have hik : i = i1 := by
      have := congrArg (fun p => p.1) hrun
      simp only [Except.ok.injEq] at this
      exact this.symm
    have hbuf : buf2 = b1 := (congrArg (fun p => p.2.1) hrun).symm
    have ht2 : t2 = t1 := (congrArg (fun p => p.2.2) hrun).symm
    obtain ⟨fresh, body, hb1, hshape, horder, hchunk⟩ :=
      add_new_node_spec trig nn t buf i1 b1 t1 hadd
    subst hik
    refine ⟨fresh, hbuf.trans hb1, ?_, ?_⟩
    · rw [ht2]
      simpa [keptIdsOfList] using hinv.addChunk hchunk
    · intro cs ls rs htail
      rw [hshape]
      exact ResolveList.new nn body i cs ls rs (hshape ▸ horder) htail

/-- Run specification for the whole group-children loop, success case. -/
theorem updateChildrenLoop_ok_spec (trig : Trig) (pre : Tree) (children : List Nat) :
    ∀ (cs : List ChildUpdate) (t : Tree) (buf idxs : List Nat) (kept newIds : List Nat)
      (out buf2 : List Nat) (t2 : Tree),
      MidInv pre t children kept newIds →
      Tree.updateChildrenLoop trig t buf idxs cs = (Except.ok out, buf2, t2) →
      ∃ ls rs, ResolveList cs ls rs ∧ out = idxs ++ rs ∧ buf2 = buf ++ ls.join ∧
        MidInv pre t2 children (kept ++ keptIdsOfList cs) (newIds ++ ls.join) := by
  intro cs
  induction cs with
  | nil =>
    intro t buf idxs kept newIds out buf2 t2 hinv hrun
    simp only [Tree.updateChildrenLoop, Prod.mk.injEq, Except.ok.injEq] at hrun
    obtain ⟨h1, h2, h3⟩ := hrun
    refine ⟨[], [], ResolveList.nil, by simp [h1], by simp [h2], ?_⟩
    rw [← h3]
    simpa [keptIdsOfList] using hinv
  | cons cu cs ih =>
    intro t buf idxs kept newIds out buf2 t2 hinv hrun
    simp only [Tree.updateChildrenLoop] at hrun
    rcases hc : Tree.update_child trig t buf cu with ⟨r, b1, t1⟩
    rw [hc] at hrun
    cases r with
    | error e => cases congrArg (fun p => p.1) hrun
    | ok i =>
      obtain ⟨chunk, hb1, hinv1, hres1⟩ :=
        update_child_ok_spec trig pre children kept newIds t buf cu i b1 t1 hinv hc
      obtain ⟨ls2, rs2, hres2, hout, hbuf2, hinv2⟩ :=
        ih t1 b1 (idxs ++ [i]) (kept ++ keptIdsOfList [cu]) (newIds ++ chunk)
          out buf2 t2 hinv1 hrun
      refine ⟨chunk :: ls2, i :: rs2, hres1 cs ls2 rs2 hres2, ?_, ?_, ?_⟩
      · rw [hout, List.append_assoc]
        rfl
      · rw [hbuf2, hb1]
        simp [List.append_assoc]
      · rw [keptIdsOfList_cons]
        simpa [List.append_assoc] using hinv2

/-- Run specification for the group-children loop, error case: the invariant
still holds for the arena in which the loop stopped (flags on the snapshot and
some leaked fresh nodes; nothing else changed). -/
theorem updateChildrenLoop_err_spec (trig : Trig) (pre : Tree) (children : List Nat) :
    ∀ (cs : List ChildUpdate) (t : Tree) (buf idxs : List Nat) (kept newIds : List Nat)
      (e : NodeUpdateError) (buf2 : List Nat) (t2 : Tree),
      MidInv pre t children kept newIds →
      Tree.updateChildrenLoop trig t buf idxs cs = (Except.error e, buf2, t2) →
      ∃ kept2 new2, MidInv pre t2 children (kept ++ kept2) (newIds ++ new2) := by
  intro cs
  induction cs with
  | nil =>
    intro t buf idxs kept newIds e buf2 t2 hinv hrun
    cases congrArg (fun p => p.1) hrun
  | cons cu cs ih =>
    intro t buf idxs kept newIds e buf2 t2 hinv hrun
    simp only [Tree.updateChildrenLoop] at hrun
    rcases hc : Tree.update_child trig t buf cu with ⟨r, b1, t1⟩
    rw [hc] at hrun
    cases r with
    | error e2 =>
      obtain ⟨hbuf, ht⟩ := update_child_err_spec trig t buf cu e2 b1 t1 hc
      have ht2 : t2 = t1 := (congrArg (fun p => p.2.2) hrun).symm
      refine ⟨[], [], ?_⟩
      rw [ht2, ht]
      simpa using hinv
    | ok i =>
      obtain ⟨chunk, hb1, hinv1, hres1⟩ :=
        update_child_ok_spec trig pre children kept newIds t buf cu i b1 t1 hinv hc
      obtain ⟨kept2, new2, hinv2⟩ :=
        ih t1 b1 (idxs ++ [i]) (kept ++ keptIdsOfList [cu]) (newIds ++ chunk)
          e buf2 t2 hinv1 hrun
      exact ⟨keptIdsOfList [cu] ++ kept2, chunk ++ new2,
        by simpa [List.append_assoc] using hinv2⟩

/-- The `begin_children_update` fold: marking a list of ids owned. -/
theorem markOwned_get :
    ∀ (l : List Nat) (t : Tree) (j : Nat),
      ((l.foldl (fun acc c =>
          (⟨acc.nodes.modify c (fun n => { n with owned := true })⟩ : Tree)) t).nodes.get j) =
        if j ∈ l then (t.nodes.get j).map (fun n => { n with owned := true })
        else t.nodes.get j := by
  intro l
  induction l with
  | nil => intro t j; simp
  | cons c l ih =>
    intro t j
    rw [List.foldl_cons, ih]
    by_cases hjl : j ∈ l
    · rw [if_pos hjl, if_pos (List.mem_cons_of_mem c hjl)]
      by_cases hjc : j = c
      · subst hjc
        rw [Slab.get_modify_self]
        cases t.nodes.get j <;> rfl
      · rw [Slab.get_modify_ne _ _ _ _ hjc]
    · rw [if_neg hjl]
      by_cases hjc : j = c
      · subst hjc
        rw [if_pos (List.mem_cons_self j l)]
        exact Slab.get_modify_self t.nodes j _
      · rw [if_neg (by simp [hjc, hjl]), Slab.get_modify_ne _ _ _ _ hjc]

/-- `begin_children_update` on an allocated target returns its children
snapshot, and the resulting arena satisfies the mid-update invariant (given
clear flags before the call). -/
theorem begin_spec (pre : Tree) (target : Nat) (node : Node)
    (hflags : Tree.flagsClear pre)
    (hget : pre.nodes.get target = some node) :
    (Tree.begin_children_update pre target).1 =
      Except.ok (Tree.childrenOfKind node.kind) ∧
    MidInv pre (Tree.begin_children_update pre target).2
      (Tree.childrenOfKind node.kind) [] [] := by
  constructor
  · simp only [Tree.begin_children_update, hget]
  · refine ⟨?_, ?_, ?_, List.nodup_nil, ?_⟩
    · intro j n hj
      simp only [Tree.begin_children_update, hget]
      rw [markOwned_get]
      obtain ⟨ho, hr⟩ := hflags j n hj
      by_cases hmem : j ∈ Tree.childrenOfKind node.kind
      · rw [if_pos hmem, hj]
        exact ⟨{ n with owned := true }, rfl, rfl, rfl, by simp [hmem], by simp [hr]⟩
      · rw [if_neg hmem, hj]
        exact ⟨n, rfl, rfl, rfl, by simp [hmem, ho], by simp [hr]⟩
    · intro j n2 hg hnone
      simp only [Tree.begin_children_update, hget] at hg
      rw [markOwned_get, hnone] at hg
      by_cases hmem : j ∈ Tree.childrenOfKind node.kind
      · rw [if_pos hmem] at hg
        cases hg
      · rw [if_neg hmem] at hg
        cases hg
    · intro j hj
      cases hj
    · intro j hj
      cases hj

/-- The per-child step of `end_children_update` does not disturb other ids. -/
theorem endStep_get_ne (t : Tree) (c : Nat) (removeUnused : Bool) (j : Nat) (hj : j ≠ c) :
    ((match t.nodes.get c with
      | none => t
      | some node =>
        if node.reused then
          (⟨t.nodes.setVal c { node with owned := false, reused := false }⟩ : Tree)
        else
          let acc2 : Tree := ⟨t.nodes.setVal c { node with owned := false }⟩
          if removeUnused then (⟨acc2.nodes.remove c⟩ : Tree) else acc2) : Tree).nodes.get j =
      t.nodes.get j := by
  cases hg : t.nodes.get c with
  | none => rfl
  | some node =>
    by_cases hr : node.reused
    · simp only [hr, if_true]
      exact Slab.get_setVal_ne _ _ _ _ hj
    · simp only [hr, if_false, Bool.false_eq_true]
      by_cases hru : removeUnused
      · simp only [hru, if_true]
        rw [Slab.get_remove_ne _ _ _ hj]
        exact Slab.get_setVal_ne _ _ _ _ hj
      · simp only [hru, if_false, Bool.false_eq_true]
        exact Slab.get_setVal_ne _ _ _ _ hj

/-- Full specification of `end_children_update` over a duplicate-free
snapshot: outside ids are untouched; each snapshot id has its flags cleared,
and is removed exactly when it was not reused and `removeUnused` is set. -/
theorem end_spec :
    ∀ (children : List Nat), children.Nodup → ∀ (t : Tree) (removeUnused : Bool),
      (∀ j, j ∉ children →
        (Tree.end_children_update t children removeUnused).nodes.get j = t.nodes.get j) ∧
      (∀ c ∈ children,
        (Tree.end_children_update t children removeUnused).nodes.get c =
          match t.nodes.get c with
          | none => none
          | some n =>
            if n.reused then some { n with owned := false, reused := false }
            else if removeUnused then none else some { n with owned := false }) := by
  intro children
  induction children with
  | nil =>
    intro _ t removeUnused
    exact ⟨fun j _ => rfl, fun c hc => absurd hc (List.not_mem_nil c)⟩
  | cons c cs ih =>
    intro hnd t removeUnused
    obtain ⟨hc_not_mem, hnd2⟩ := List.nodup_cons.mp hnd
    have hstep : Tree.end_children_update t (c :: cs) removeUnused =
        Tree.end_children_update
          (match t.nodes.get c with
            | none => t
            | some node =>
              if node.reused then
                (⟨t.nodes.setVal c { node with owned := false, reused := false }⟩ : Tree)
              else
                let acc2 : Tree := ⟨t.nodes.setVal c { node with owned := false }⟩
                if removeUnused then (⟨acc2.nodes.remove c⟩ : Tree) else acc2)
          cs removeUnused := rfl
    obtain ⟨hout, hin⟩ := ih hnd2 (match t.nodes.get c with
      | none => t
      | some node =>
        if node.reused then
          (⟨t.nodes.setVal c { node with owned := false, reused := false }⟩ : Tree)
        else
          let acc2 : Tree := ⟨t.nodes.setVal c { node with owned := false }⟩
          if removeUnused then (⟨acc2.nodes.remove c⟩ : Tree) else acc2) removeUnused
    constructor
    · intro j hj
      have hj1 : j ≠ c := fun hc2 => hj (hc2 ▸ List.mem_cons_self c cs)
      have hj2 : j ∉ cs := fun hc2 => hj (List.mem_cons_of_mem c hc2)
      rw [hstep, hout j hj2, endStep_get_ne t c removeUnused j hj1]
    · intro c2 hc2
      rcases List.mem_cons.mp hc2 with rfl | hc2
      · rw [hstep, hout c2 hc_not_mem]
        cases hg : t.nodes.get c2 with
        | none => exact hg
        | some node =>
          simp only
          by_cases hr : node.reused
          · simp only [hr, if_true]
            rw [Slab.get_setVal_self, hg]
            rfl
          · simp only [hr, if_false, Bool.false_eq_true]
            by_cases hru : removeUnused
            · simp only [hru, if_true]
              exact Slab.get_remove_self _ c2
            · simp only [hru, if_false, Bool.false_eq_true]
              rw [Slab.get_setVal_self, hg]
              rfl
      · have hne : c2 ≠ c := fun hcc => hc_not_mem (hcc ▸ hc2)
        rw [hstep, hin c2 hc2, endStep_get_ne t c removeUnused c2 hne]

/-- How `update_node_inner` resolves an update content: the per-entry fresh id
chunks `ls`, the resolved child ids `rs`, and the replacement node kind. -/
def ContentResolve : NodeContent → List (List Nat) → List Nat → NodeKind → Prop
  | NodeContent.shape s, ls, rs, kind => ls = [] ∧ rs = [] ∧ kind = NodeKind.shape s
  | NodeContent.operation op cu, ls, rs, kind =>
      ∃ l i, ls = [l] ∧ rs = [i] ∧ ResolveList [cu] [l] [i] ∧
        kind = NodeKind.operation op i
  | NodeContent.group nc, ls, rs, kind =>
      ResolveList (nc.getD []) ls rs ∧ kind = NodeKind.group rs

theorem keptIds_operation (op : Operation) (cu : ChildUpdate) :
    NodeContent.keptIds (NodeContent.operation op cu) = keptIdsOfList [cu] := by
  cases cu <;> rfl

/-- Decomposition of a successful `update_node` run: after `begin`, the content
resolution leaves the arena in a `MidInv` state whose kept ids are exactly the
`KeepIndex` ids of the content and whose fresh ids are exactly the response
ids; the final arena is obtained by replacing the target in place and running
the cleanup pass with `remove_unused` set. -/
theorem update_node_ok_run (trig : Trig) (pre : Tree) (u : NodeUpdate)
    (resp : NodeUpdateResponse) (t2 : Tree) (tnode : Node)
    (hflags : Tree.flagsClear pre)
    (hget : pre.nodes.get u.target = some tnode)
    (hrun : Tree.update_node trig pre u = (Except.ok resp, t2)) :
    ∃ (tMid : Tree) (ls : List (List Nat)) (rs : List Nat) (kindRes : NodeKind),
      ContentResolve u.content ls rs kindRes ∧
      resp.newNodes = ls.join ∧
      MidInv pre tMid (Tree.childrenOfKind tnode.kind)
        (NodeContent.keptIds u.content) ls.join ∧
      t2 = Tree.end_children_update
            (⟨tMid.nodes.setVal u.target (tMid.create_new_node trig kindRes)⟩ : Tree)
            (Tree.childrenOfKind tnode.kind) true := by
  obtain ⟨hb1, hbinv⟩ := begin_spec pre u.target tnode hflags hget
  simp only [Tree.update_node] at hrun
  rcases hb : Tree.begin_children_update pre u.target with ⟨rb, t1⟩
  rw [hb] at hrun
  rw [hb] at hb1 hbinv
  simp only at hb1 hbinv
  subst hb1
  simp only at hrun
  rcases hi : Tree.update_node_inner trig t1 u with ⟨ri, t3⟩
  rw [hi] at hrun
  simp only [Tree.update_node_inner] at hi
  cases hcontent : u.content with
  | shape s =>
    rw [hcontent] at hi
    simp only at hi
    have hri : ri = Except.ok ⟨[]⟩ := (congrArg (fun p => p.1) hi).symm
    have ht3 : t3 = (⟨t1.nodes.setVal u.target
        (t1.create_new_node trig (NodeKind.shape s))⟩ : Tree) :=
      (congrArg (fun p => p.2) hi).symm
    rw [hri] at hrun
    simp only at hrun
    have hresp : resp = ⟨[]⟩ := by
      have h1 := congrArg (fun p => p.1) hrun
      simp only [Except.ok.injEq] at h1
      exact h1.symm
    have ht2 : t2 = Tree.end_children_update t3 (Tree.childrenOfKind tnode.kind) true :=
      (congrArg (fun p => p.2) hrun).symm
    refine ⟨t1, [], [], NodeKind.shape s, ⟨rfl, rfl, rfl⟩, by simp [hresp], ?_, ?_⟩
    · simpa [hcontent, NodeContent.keptIds] using hbinv
    · rw [ht2, ht3]
  | operation op cu =>
    rw [hcontent] at hi
    simp only at hi
    rcases hc : Tree.update_child trig t1 [] cu with ⟨rc, b1, tc⟩
    rw [hc] at hi
    cases rc with
    | error e =>
      simp only at hi
      have hri : ri = Except.error e := (congrArg (fun p => p.1) hi).symm
      rw [hri] at hrun
      simp only at hrun
      cases congrArg (fun p => p.1) hrun
    | ok i =>
      simp only at hi
      have hri : ri = Except.ok ⟨b1⟩ := (congrArg (fun p => p.1) hi).symm
      have ht3 : t3 = (⟨tc.nodes.setVal u.target
          (tc.create_new_node trig (NodeKind.operation op i))⟩ : Tree) :=
        (congrArg (fun p => p.2) hi).symm
      rw [hri] at hrun
      simp only at hrun
      have hresp : resp = ⟨b1⟩ := by
        have h1 := congrArg (fun p => p.1) hrun
        simp only [Except.ok.injEq] at h1
        exact h1.symm
      have ht2 : t2 = Tree.end_children_update t3 (Tree.childrenOfKind tnode.kind) true :=
        (congrArg (fun p => p.2) hrun).symm
      obtain ⟨chunk, hb1e, hinv1, hres1⟩ :=
        update_child_ok_spec trig pre (Tree.childrenOfKind tnode.kind) [] []
          t1 [] cu i b1 tc hbinv hc
      refine ⟨tc, [chunk], [i], NodeKind.operation op i,
        ⟨chunk, i, rfl, rfl, hres1 [] [] [] ResolveList.nil, rfl⟩, ?_, ?_, ?_⟩
      · rw [hresp]
        simpa using hb1e
      · rw [keptIds_operation]
        simpa using hinv1
      · rw [ht2, ht3]
  | group nc =>
    rw [hcontent] at hi
    simp only at hi
    rcases hc : Tree.updateChildrenLoop trig t1 [] [] (nc.getD []) with ⟨rc, b1, tc⟩
    rw [hc] at hi
    cases rc with
    | error e =>
      simp only at hi
      have hri : ri = Except.error e := (congrArg (fun p => p.1) hi).symm
      rw [hri] at hrun
      simp only at hrun
      cases congrArg (fun p => p.1) hrun
    | ok idxs =>
      simp only at hi
      have hri : ri = Except.ok ⟨b1⟩ := (congrArg (fun p => p.1) hi).symm
      have ht3 : t3 = (⟨tc.nodes.setVal u.target
          (tc.create_new_node trig (NodeKind.group idxs))⟩ : Tree) :=
        (congrArg (fun p => p.2) hi).symm
      rw [hri] at hrun
      simp only at hrun
      have hresp : resp = ⟨b1⟩ := by
        have h1 := congrArg (fun p => p.1) hrun
        simp only [Except.ok.injEq] at h1
        exact h1.symm
      have ht2 : t2 = Tree.end_children_update t3 (Tree.childrenOfKind tnode.kind) true :=
        (congrArg (fun p => p.2) hrun).symm
      obtain ⟨ls, rs, hres, hout, hbuf, hinv1⟩ :=
        updateChildrenLoop_ok_spec trig pre (Tree.childrenOfKind tnode.kind)
          (nc.getD []) t1 [] [] [] [] idxs b1 tc hbinv hc
      have hidxs : idxs = rs := by simpa using hout
      refine ⟨tc, ls, rs, NodeKind.group rs, ⟨hres, rfl⟩, ?_, ?_, ?_⟩
      · rw [hresp]
        simpa using hbuf
      · simpa [NodeContent.keptIds] using hinv1
      · rw [ht2, ht3, hidxs]

/-- Final-state facts after replacing the target and running the cleanup with
`remove_unused` set, given a duplicate-free children snapshot not containing
the target. -/
theorem finish_spec (trig : Trig) (pre tMid : Tree) (target : Nat)
    (children kept newIds : List Nat) (kindRes : NodeKind)
    (hnodup : children.Nodup)
    (hnotself : target ∉ children)
    (hpre : (pre.nodes.get target).isSome)
    (hinv : MidInv pre tMid children kept newIds) :
    (∃ n2, (Tree.end_children_update
        (⟨tMid.nodes.setVal target (tMid.create_new_node trig kindRes)⟩ : Tree)
        children true).nodes.get target = some n2 ∧ n2.kind = kindRes ∧
        n2.owned = false ∧ n2.reused = false) ∧
    (∀ c ∈ children, c ∉ kept →
      (Tree.end_children_update
        (⟨tMid.nodes.setVal target (tMid.create_new_node trig kindRes)⟩ : Tree)
        children true).nodes.get c = none) ∧
    (∀ c ∈ children, c ∈ kept → ∀ n, pre.nodes.get c = some n →
      ∃ n2, (Tree.end_children_update
        (⟨tMid.nodes.setVal target (tMid.create_new_node trig kindRes)⟩ : Tree)
        children true).nodes.get c = some n2 ∧ n2.kind = n.kind ∧ n2.aabb = n.aabb ∧
        n2.owned = false ∧ n2.reused = false) ∧
    (∀ j n, pre.nodes.get j = some n → j ∉ children → j ≠ target →
      ∃ n2, (Tree.end_children_update
        (⟨tMid.nodes.setVal target (tMid.create_new_node trig kindRes)⟩ : Tree)
        children true).nodes.get j = some n2 ∧ n2.kind = n.kind ∧ n2.aabb = n.aabb ∧
        n2.owned = false ∧ n2.reused = false) := by
  obtain ⟨hout, hin⟩ := end_spec children hnodup
    (⟨tMid.nodes.setVal target (tMid.create_new_node trig kindRes)⟩ : Tree) true
  have htarget3 : (⟨tMid.nodes.setVal target (tMid.create_new_node trig kindRes)⟩ :
      Tree).nodes.get target = some (tMid.create_new_node trig kindRes) := by
    rw [Slab.get_setVal_self]
    cases hp : pre.nodes.get target with
    | none => rw [hp] at hpre; cases hpre
    | some n =>
      obtain ⟨n2, hg, _⟩ := hinv.oldNodes target n hp
      rw [hg]
      rfl
  have hother3 : ∀ j, j ≠ target →
      (⟨tMid.nodes.setVal target (tMid.create_new_node trig kindRes)⟩ :
        Tree).nodes.get j = tMid.nodes.get j := by
    intro j hj
    exact Slab.get_setVal_ne _ _ _ _ hj
  refine ⟨?_, ?_, ?_, ?_⟩
  · refine ⟨tMid.create_new_node trig kindRes, ?_, rfl, rfl, rfl⟩
    rw [hout target hnotself, htarget3]
  · intro c hc hckept
    have hct : c ≠ target := fun hcc => hnotself (hcc ▸ hc)
    rw [hin c hc, hother3 c hct]
    cases hg : tMid.nodes.get c with
    | none => rfl
    | some n2 =>
      have hreu : n2.reused = false := by
        cases hp : pre.nodes.get c with
        | none => exact (hinv.newNodes c n2 hg hp).2.2
        | some n0 =>
          obtain ⟨n3, hg3, _, _, _, hreu3⟩ := hinv.oldNodes c n0 hp
          rw [hg] at hg3
          injection hg3 with hg3
          subst hg3
          rw [hreu3]
          simp [hckept]
      simp only [hreu, if_false, if_true, Bool.false_eq_true]
  · intro c hc hckept n hp
    have hct : c ≠ target := fun hcc => hnotself (hcc ▸ hc)
    obtain ⟨n2, hg, hkind, haabb, hown, hreu⟩ := hinv.oldNodes c n hp
    rw [hin c hc, hother3 c hct, hg]
    have hreut : n2.reused = true := by
      rw [hreu]
      simp [hckept]
    simp only [hreut, if_true]
    exact ⟨{ n2 with owned := false, reused := false }, rfl, hkind, haabb, rfl, rfl⟩
  · intro j n hp hjc hjt
    obtain ⟨n2, hg, hkind, haabb, hown, hreu⟩ := hinv.oldNodes j n hp
    rw [hout j hjc, hother3 j hjt, hg]
    refine ⟨n2, rfl, hkind, haabb, ?_, ?_⟩
    · rw [hown]
      simp [hjc]
    · rw [hreu]
      have : j ∉ kept := fun hk => hjc (hinv.keptSub hk)
      simp [this]

/-- Boolean form of the clear-flags invariant for one slab entry. -/
def SlabEntry.flagsOk : SlabEntry Node → Bool
  | SlabEntry.occupied n => !n.owned && !n.reused
  | SlabEntry.vacant _ => true

/-- Decidable sufficient condition for `flagsClear` on concrete trees. -/
theorem Tree.flagsClear_of_all (t : Tree)
    (h : t.nodes.entries.all SlabEntry.flagsOk = true) : t.flagsClear := by
  intro i n hg
  unfold Slab.get at hg
  cases he : t.nodes.entries[i]? with
  | none => rw [he] at hg; cases hg
  | some e =>
    rw [he] at hg
    cases e with
    | vacant k => cases hg
    | occupied a =>
      have ha : a = n := by injection hg
      subst ha
      have hmem : SlabEntry.occupied a ∈ t.nodes.entries := by
        rcases List.getElem?_eq_some_iff.mp he with ⟨hl, hv⟩
        exact hv ▸ List.getElem_mem hl
      have := List.all_eq_true.mp h _ hmem
      simp only [SlabEntry.flagsOk, Bool.and_eq_true, Bool.not_eq_true'] at this
      exact this

/-! Claim C1: behaviour of the arena on a failed update. -/

/-- A tree with root `Group([1])` and node 1 `Shape(Empty)`. -/
def exOneChildTree : Tree :=
  (Tree.update_node trigModel Tree.new
    ⟨0, NodeContent.group (some [ChildUpdate.newNode (NewNode.shape Shape.empty)])⟩).2

/-- The failing update used in the C1 counterexample: materialize one new node,
then hit an invalid `KeepIndex`. -/
def exLeakUpdate : NodeUpdate :=
  ⟨0, NodeContent.group (some
    [ChildUpdate.newNode (NewNode.shape Shape.empty), ChildUpdate.keepIndex 5])⟩

/-- Claim C1 counterexample: `update_node` returns `InvalidKeepIndex(5)`, yet
the arena after the call is not equivalent to the arena before it — the node
materialized for the first (`NewNode`) child before the error was hit remains
allocated at the previously vacant id 2. -/
theorem C1_counterexample :
    (Tree.update_node trigModel exOneChildTree exLeakUpdate).1 =
      Except.error (NodeUpdateError.invalidKeepIndex 5) ∧
    exOneChildTree.nodes.get 2 = none ∧
    (Tree.update_node trigModel exOneChildTree exLeakUpdate).2.nodes.get 2 =
      some (Node.new (NodeKind.shape Shape.empty) Aabb.INVALID) := by
  refine ⟨?_, ?_, ?_⟩ <;> with_unfolding_all decide

/-- Claim C1 (amended): when `update_node` returns an error, every node present
before the call is still present with unchanged kind and AABB and clear flags
(no original child is removed and the target is not replaced), and every node
in the post-call arena has clear flags; however, the arena need not be
equivalent to the pre-call one: nodes freshly materialized for `NewNode`
children processed before the error remain allocated. -/
theorem C1_error_cleanup (trig : Trig) (pre : Tree) (u : NodeUpdate)
    (e : NodeUpdateError) (t2 : Tree)
    (hflags : Tree.flagsClear pre)
    (hnodup : (Tree.childrenOf pre u.target).Nodup)
    (hrun : Tree.update_node trig pre u = (Except.error e, t2)) :
    (∀ j n, pre.nodes.get j = some n → ∃ n2, t2.nodes.get j = some n2 ∧
      n2.kind = n.kind ∧ n2.aabb = n.aabb ∧ n2.owned = false ∧ n2.reused = false) ∧
    (∀ j n2, t2.nodes.get j = some n2 → n2.owned = false ∧ n2.reused = false) := by
  simp only [Tree.update_node] at hrun
  cases hw : pre.nodes.get u.target with
  | none =>
    have hbe : Tree.begin_children_update pre u.target =
        (Except.error NodeUpdateError.invalidTarget, pre) := by
      simp only [Tree.begin_children_update, hw]
    rw [hbe] at hrun
    simp only at hrun
    have ht2 : t2 = pre := (congrArg (fun p => p.2) hrun).symm
    subst ht2
    constructor
    · intro j n hj
      obtain ⟨ho, hr⟩ := hflags j n hj
      exact ⟨n, hj, rfl, rfl, ho, hr⟩
    · intro j n2 hj
      exact hflags j n2 hj
  | some tnode =>
    obtain ⟨hb1, hbinv⟩ := begin_spec pre u.target tnode hflags hw
    rcases hb : Tree.begin_children_update pre u.target with ⟨rb, t1⟩
    rw [hb] at hrun hb1 hbinv
    simp only at hb1 hbinv
    subst hb1
    simp only at hrun
    rcases hi : Tree.update_node_inner trig t1 u with ⟨ri, t3⟩
    rw [hi] at hrun
    cases ri with
    | ok resp =>
      simp only at hrun
      cases congrArg (fun p => p.1) hrun
    | error e2 =>
      simp only at hrun
      have he2 : e = e2 := by
        have h1 := congrArg (fun p => p.1) hrun
        simp only [Except.error.injEq] at h1
        exact h1.symm
      have ht2 : t2 = Tree.end_children_update t3 (Tree.childrenOfKind tnode.kind) false :=
        (congrArg (fun p => p.2) hrun).symm
      have hmid : ∃ kept2 new2,
          MidInv pre t3 (Tree.childrenOfKind tnode.kind) kept2 new2 := by
        simp only [Tree.update_node_inner] at hi
        cases hcontent : u.content with
        | shape s =>
          rw [hcontent] at hi
          simp only at hi
          cases congrArg (fun p => p.1) hi
        | operation op cu =>
          rw [hcontent] at hi
          simp only at hi
          rcases hc : Tree.update_child trig t1 [] cu with ⟨rc, b1, tc⟩
          rw [hc] at hi
          cases rc with
          | ok i =>
            simp only at hi
            cases congrArg (fun p => p.1) hi
          | error e3 =>
            simp only at hi
            obtain ⟨hbuf, htc⟩ := update_child_err_spec trig t1 [] cu e3 b1 tc hc
            have ht3 : t3 = tc := (congrArg (fun p => p.2) hi).symm
            exact ⟨[], [], by rw [ht3, htc]; exact hbinv⟩
        | group nc =>
          rw [hcontent] at hi
          simp only at hi
          rcases hc : Tree.updateChildrenLoop trig t1 [] [] (nc.getD []) with ⟨rc, b1, tc⟩
          rw [hc] at hi
          cases rc with
          | ok idxs =>
            simp only at hi
            cases congrArg (fun p => p.1) hi
          | error e3 =>
            simp only at hi
            have ht3 : t3 = tc := (congrArg (fun p => p.2) hi).symm
            obtain ⟨kept2, new2, hminv⟩ :=
              updateChildrenLoop_err_spec trig pre (Tree.childrenOfKind tnode.kind)
                (nc.getD []) t1 [] [] [] [] e3 b1 tc hbinv hc
            exact ⟨kept2, new2, by rw [ht3]; simpa using hminv⟩
      obtain ⟨kept2, new2, hminv⟩ := hmid
      have hnodup2 : (Tree.childrenOfKind tnode.kind).Nodup := by
        rw [Tree.childrenOf, hw] at hnodup
        exact hnodup
      obtain ⟨hout, hin⟩ := end_spec (Tree.childrenOfKind tnode.kind) hnodup2 t3 false
      rw [ht2]
      constructor
      · intro j n hj
        obtain ⟨n2, hg, hkind, haabb, hown, hreu⟩ := hminv.oldNodes j n hj
        by_cases hjc : j ∈ Tree.childrenOfKind tnode.kind
        · rw [hin j hjc, hg]
          by_cases hr : n2.reused = true
          · simp only [hr, if_true]
            exact ⟨{ n2 with owned := false, reused := false }, rfl, hkind, haabb, rfl, rfl⟩
          · simp only [hr, if_false, Bool.false_eq_true]
            exact ⟨{ n2 with owned := false, reused := false }, rfl, hkind, haabb, rfl, rfl⟩
        · rw [hout j hjc, hg]
          refine ⟨n2, rfl, hkind, haabb, ?_, ?_⟩
          · rw [hown]
            simp [hjc]
          · rw [hreu]
            have : j ∉ kept2 := fun hk => hjc (hminv.keptSub hk)
            simp [this]
      · intro j n2 hj
        by_cases hjc : j ∈ Tree.childrenOfKind tnode.kind
        · rw [hin j hjc] at hj
          cases hg : t3.nodes.get j with
          | none => rw [hg] at hj; cases hj
          | some n3 =>
            rw [hg] at hj
            by_cases hr : n3.reused = true
            · simp only [hr, if_true] at hj
              injection hj with hj
              subst hj
              exact ⟨rfl, rfl⟩
            · simp only [hr, if_false, Bool.false_eq_true] at hj
              injection hj with hj
              subst hj
              exact ⟨rfl, rfl⟩
        · rw [hout j hjc] at hj
          cases hp : pre.nodes.get j with
          | none =>
            obtain ⟨_, ho2, hr2⟩ := hminv.newNodes j n2 hj hp
            exact ⟨ho2, hr2⟩
          | some n0 =>
            obtain ⟨n3, hg, hkind, haabb, hown, hreu⟩ := hminv.oldNodes j n0 hp
            rw [hj] at hg
            injection hg with hg
            subst hg
            refine ⟨?_, ?_⟩
            · rw [hown]
              simp [hjc]
            · rw [hreu]
              have : j ∉ kept2 := fun hk => hjc (hminv.keptSub hk)
              simp [this]

/-- Claim C1 witness: the amended theorem applied to the concrete failing
update of the counterexample: node 1 (the original child) survives with its
kind, AABB, and clear flags. -/
theorem C1_witness :
    ∃ n2, (Tree.update_node trigModel exOneChildTree exLeakUpdate).2.nodes.get 1 =
        some n2 ∧
      n2.kind = NodeKind.shape Shape.empty ∧ n2.aabb = Aabb.INVALID ∧
      n2.owned = false ∧ n2.reused = false := by
  have h := C1_error_cleanup trigModel exOneChildTree exLeakUpdate
    (NodeUpdateError.invalidKeepIndex 5)
    (Tree.update_node trigModel exOneChildTree exLeakUpdate).2
    (Tree.flagsClear_of_all exOneChildTree (by with_unfolding_all decide))
    (by with_unfolding_all decide)
    (by
      rw [Prod.ext_iff]
      exact ⟨by with_unfolding_all decide, rfl⟩)
  exact h.1 1 (Node.new (NodeKind.shape Shape.empty) Aabb.INVALID)
    (by with_unfolding_all decide)

/-! Claim C2: orphan collection after a successful update. -/

/-- A tree with root `Group([2])`, node 2 `Group([1])`, node 1 `Shape(Empty)`. -/
def exNestTree : Tree :=
  (Tree.update_node trigModel Tree.new
    ⟨0, NodeContent.group (some
      [ChildUpdate.newNode (NewNode.group [NewNode.shape Shape.empty])])⟩).2

/-- An update replacing the target with an empty group (abandoning all
children). -/
def exAbandonUpdate : NodeUpdate := ⟨0, NodeContent.group (some [])⟩

/-- Claim C2 counterexample: abandoning the root's child 2 (whose own child is
node 1) removes node 2 but leaves node 1 allocated, although node 1 was
reachable only through node 2 — the removal is not transitive. -/
theorem C2_counterexample :
    Tree.childrenOf exNestTree 0 = [2] ∧
    Tree.childrenOf exNestTree 2 = [1] ∧
    (Tree.update_node trigModel exNestTree exAbandonUpdate).1 = Except.ok ⟨[]⟩ ∧
    (Tree.update_node trigModel exNestTree exAbandonUpdate).2.nodes.get 2 = none ∧
    (Tree.update_node trigModel exNestTree exAbandonUpdate).2.nodes.get 1 =
      some (Node.new (NodeKind.shape Shape.empty) Aabb.INVALID) := by
  refine ⟨?_, ?_, ?_, ?_, ?_⟩ <;> with_unfolding_all decide

/-- Claim C2 (amended): after a successful `update_node`, every node that was
a direct child of the target before the call and was not reused by a
`KeepIndex` in this update is absent from the arena; the removal does not
recurse, however: every other pre-existing node — in particular every node
that was reachable only through a removed child — is still allocated with
unchanged kind and AABB. -/
theorem C2_orphan_gc (trig : Trig) (pre : Tree) (u : NodeUpdate)
    (resp : NodeUpdateResponse) (t2 : Tree) (tnode : Node)
    (hflags : Tree.flagsClear pre)
    (hget : pre.nodes.get u.target = some tnode)
    (hnodup : (Tree.childrenOfKind tnode.kind).Nodup)
    (hnotself : u.target ∉ Tree.childrenOfKind tnode.kind)
    (hrun : Tree.update_node trig pre u = (Except.ok resp, t2)) :
    (∀ c ∈ Tree.childrenOfKind tnode.kind, c ∉ NodeContent.keptIds u.content →
      t2.nodes.get c = none) ∧
    (∀ j n, pre.nodes.get j = some n → j ∉ Tree.childrenOfKind tnode.kind →
      j ≠ u.target → ∃ n2, t2.nodes.get j = some n2 ∧
        n2.kind = n.kind ∧ n2.aabb = n.aabb) := by
  obtain ⟨tMid, ls, rs, kindRes, hres, hnew, hinv, ht2⟩ :=
    update_node_ok_run trig pre u resp t2 tnode hflags hget hrun
  obtain ⟨hfin1, hfin2, hfin3, hfin4⟩ :=
    finish_spec trig pre tMid u.target (Tree.childrenOfKind tnode.kind)
      (NodeContent.keptIds u.content) ls.join kindRes hnodup hnotself
      (by rw [hget]; rfl) hinv
  constructor
  · intro c hc hckept
    rw [ht2]
    exact hfin2 c hc hckept
  · intro j n hj hjc hjt
    rw [ht2]
    obtain ⟨n2, hg, hkind, haabb, _, _⟩ := hfin4 j n hj hjc hjt
    exact ⟨n2, hg, hkind, haabb⟩

/-- Claim C2 witness: applying the amended theorem to the concrete abandoning
update removes the unreused direct child 2. -/
theorem C2_witness :
    (Tree.update_node trigModel exNestTree exAbandonUpdate).2.nodes.get 2 = none :=
  (C2_orphan_gc trigModel exNestTree exAbandonUpdate ⟨[]⟩
    (Tree.update_node trigModel exNestTree exAbandonUpdate).2
    (Node.new (NodeKind.group [2]) Aabb.INVALID)
    (Tree.flagsClear_of_all exNestTree (by with_unfolding_all decide))
    (by with_unfolding_all decide)
    (by with_unfolding_all decide)
    (by with_unfolding_all decide)
    (by
      rw [Prod.ext_iff]
      exact ⟨by with_unfolding_all decide, rfl⟩)).1
    2 (by with_unfolding_all decide) (by with_unfolding_all decide)

/-! Claim C4: freshness, distinctness and order of the response ids. -/

/-- Claim C4: on a successful `update_node`, the ids in `new_nodes` are
pairwise distinct, none of them identified a node allocated in the arena
immediately before the call, and the list is the concatenation of one chunk
per resolved child (`KeepIndex` contributing nothing), where each `NewNode`
chunk is laid out children-first with the subtree's root id last
(`ContentResolve` / `AllocOrder`). -/
theorem C4_new_ids (trig : Trig) (pre : Tree) (u : NodeUpdate)
    (resp : NodeUpdateResponse) (t2 : Tree) (tnode : Node)
    (hflags : Tree.flagsClear pre)
    (hget : pre.nodes.get u.target = some tnode)
    (hrun : Tree.update_node trig pre u = (Except.ok resp, t2)) :
    resp.newNodes.Nodup ∧
    (∀ j ∈ resp.newNodes, pre.nodes.get j = none) ∧
    (∃ ls rs kindRes, ContentResolve u.content ls rs kindRes ∧
      resp.newNodes = ls.join) := by
  obtain ⟨tMid, ls, rs, kindRes, hres, hnew, hinv, ht2⟩ :=
    update_node_ok_run trig pre u resp t2 tnode hflags hget hrun
  refine ⟨?_, ?_, ls, rs, kindRes, hres, hnew⟩
  · rw [hnew]
    exact hinv.newNodup
  · intro j hj
    rw [hnew] at hj
    exact (hinv.newFresh j hj).1

/-- The update used by the C4 witness: a nested `NewNode` subtree. -/
def exDeepUpdate : NodeUpdate :=
  ⟨0, NodeContent.operation (Operation.opacity (F32.fin 1))
    (ChildUpdate.newNode
      (NewNode.operation (Operation.blur (F32.fin 2)) (NewNode.shape Shape.empty)))⟩

/-- Claim C4 witness: the theorem applied to a concrete nested update (which
allocates ids 1 then 2, children first): id 1 was vacant before the call. -/
theorem C4_witness : Tree.new.nodes.get 1 = none :=
  (C4_new_ids trigModel Tree.new exDeepUpdate ⟨[1, 2]⟩
    (Tree.update_node trigModel Tree.new exDeepUpdate).2
    (Node.new (NodeKind.shape Shape.empty) Aabb.default)
    (Tree.flagsClear_of_all Tree.new (by with_unfolding_all decide))
    (by with_unfolding_all decide)
    (by
      rw [Prod.ext_iff]
      exact ⟨by with_unfolding_all decide, rfl⟩)).2.1
    1 (by with_unfolding_all decide)

/-! Claim C5: a kept child keeps its id, kind, AABB and its position. -/

/-- The `KeepIndex` id at position `j` of an update content (position 0 for an
operation's single child slot). -/
def keepAt : NodeContent → Nat → Option Nat
  | NodeContent.operation _ (ChildUpdate.keepIndex k), 0 => some k
  | NodeContent.group nc, j =>
    match (nc.getD [])[j]? with
    | some (ChildUpdate.keepIndex k) => some k
    | _ => none
  | _, _ => none

/-- The id stored in child slot `j` of a node kind (slot 0 for an operation's
single child, slot `j` of a group's children list). -/
def childSlot : NodeKind → Nat → Option Nat
  | NodeKind.operation _ c, 0 => some c
  | NodeKind.group l, j => l[j]?
  | _, _ => none

theorem keepAt_cases (c : NodeContent) (j k : Nat) (h : keepAt c j = some k) :
    (∃ op, c = NodeContent.operation op (ChildUpdate.keepIndex k) ∧ j = 0) ∨
    (∃ nc, c = NodeContent.group nc ∧
      (nc.getD [])[j]? = some (ChildUpdate.keepIndex k)) := by
  cases c with
  | shape s => cases h
  | operation op cu =>
    cases cu with
    | keepIndex k2 =>
      cases j with
      | zero =>
        simp only [keepAt, Option.some.injEq] at h
        exact Or.inl ⟨op, by rw [h], rfl⟩
      | succ j2 => cases h
    | newNode nn => cases h
  | group nc =>
    simp only [keepAt] at h
    cases hg : (nc.getD [])[j]? with
    | none => rw [hg] at h; cases h
    | some cu =>
      rw [hg] at h
      cases cu with
      | keepIndex k2 =>
        simp only [Option.some.injEq] at h
        exact Or.inr ⟨nc, rfl, by rw [hg, h]⟩
      | newNode nn => cases h

theorem keepAt_mem_keptIds (c : NodeContent) (j k : Nat) (h : keepAt c j = some k) :
    k ∈ NodeContent.keptIds c := by
  rcases keepAt_cases c j k h with ⟨op, rfl, rfl⟩ | ⟨nc, rfl, hg⟩
  · simp [NodeContent.keptIds]
  · have hmem : ChildUpdate.keepIndex k ∈ nc.getD [] := by
      rcases List.getElem?_eq_some_iff.mp hg with ⟨hl, hv⟩
      exact hv ▸ List.getElem_mem hl
    simp only [NodeContent.keptIds, keptIdsOfList]
    exact List.mem_filterMap.mpr ⟨ChildUpdate.keepIndex k, hmem, rfl⟩

/-- Positions resolve keeps to their own ids. -/
theorem ResolveList.get_keep {cs : List ChildUpdate} {ls : List (List Nat)}
    {rs : List Nat} (h : ResolveList cs ls rs) :
    ∀ (j k : Nat), cs[j]? = some (ChildUpdate.keepIndex k) → rs[j]? = some k := by
  induction h with
  | nil =>
    intro j k hj
    simp at hj
  | keep k2 cs2 ls2 rs2 htail ih =>
    intro j k hj
    cases j with
    | zero =>
      simp only [List.getElem?_cons_zero, Option.some.injEq] at hj
      simp [← ChildUpdate.keepIndex.injEq k2 k, hj]
    | succ j2 =>
      simp only [List.getElem?_cons_succ] at hj ⊢
      exact ih j2 k hj
  | new nn body i2 cs2 ls2 rs2 horder htail ih =>
    intro j k hj
    cases j with
    | zero => simp at hj
    | succ j2 =>
      simp only [List.getElem?_cons_succ] at hj ⊢
      exact ih j2 k hj

/-- Claim C5: if `KeepIndex(k)` occurs at position `j` of the update content
and `k` is a direct child of the target, then after a successful update node
`k` still exists with its pre-call kind and AABB (and clear flags), and the
replaced target references `k` in exactly child slot `j` (the operation's
child slot, or position `j` of the group's children list). -/
theorem C5_keep_preserves (trig : Trig) (pre : Tree) (u : NodeUpdate)
    (resp : NodeUpdateResponse) (t2 : Tree) (tnode : Node) (j k : Nat)
    (hflags : Tree.flagsClear pre)
    (hget : pre.nodes.get u.target = some tnode)
    (hnodup : (Tree.childrenOfKind tnode.kind).Nodup)
    (hnotself : u.target ∉ Tree.childrenOfKind tnode.kind)
    (hca : ∀ c ∈ Tree.childrenOfKind tnode.kind, (pre.nodes.get c).isSome)
    (hkeep : keepAt u.content j = some k)
    (hkc : k ∈ Tree.childrenOfKind tnode.kind)
    (hrun : Tree.update_node trig pre u = (Except.ok resp, t2)) :
    (∃ n n2, pre.nodes.get k = some n ∧ t2.nodes.get k = some n2 ∧
      n2.kind = n.kind ∧ n2.aabb = n.aabb ∧ n2.owned = false ∧ n2.reused = false) ∧
    (∃ nt, t2.nodes.get u.target = some nt ∧ childSlot nt.kind j = some k) := by
  obtain ⟨tMid, ls, rs, kindRes, hres, hnew, hinv, ht2⟩ :=
    update_node_ok_run trig pre u resp t2 tnode hflags hget hrun
  obtain ⟨hfin1, hfin2, hfin3, hfin4⟩ :=
    finish_spec trig pre tMid u.target (Tree.childrenOfKind tnode.kind)
      (NodeContent.keptIds u.content) ls.join kindRes hnodup hnotself
      (by rw [hget]; rfl) hinv
  constructor
  · have hks : (pre.nodes.get k).isSome := hca k hkc
    cases hp : pre.nodes.get k with
    | none => rw [hp] at hks; cases hks
    | some n =>
      obtain ⟨n2, hg, hkind, haabb, hown, hreu⟩ :=
        hfin3 k hkc (keepAt_mem_keptIds u.content j k hkeep) n hp
      rw [ht2]
      exact ⟨n, n2, rfl, hg, hkind, haabb, hown, hreu⟩
  · obtain ⟨nt, hg, hkind, _, _⟩ := hfin1
    refine ⟨nt, by rw [ht2]; exact hg, ?_⟩
    rw [hkind]
    rcases keepAt_cases u.content j k hkeep with ⟨op, hc, rfl⟩ | ⟨nc, hc, hgj⟩
    · rw [hc] at hres
      obtain ⟨l, i, hls, hrs, hresolve, hkindRes⟩ := hres
      have hik : i = k := by
        have := hresolve.get_keep 0 k (by simp)
        simpa using this
      rw [hkindRes, hik]
      rfl
    · rw [hc] at hres
      obtain ⟨hresolve, hkindRes⟩ := hres
      have := hresolve.get_keep j k hgj
      rw [hkindRes]
      simpa [childSlot] using this

/-- Claim C5 witness: keeping child 1 of the concrete one-child tree preserves
it and re-parents it at group position 0. -/
theorem C5_witness :
    ∃ nt, (Tree.update_node trigModel exOneChildTree
        ⟨0, NodeContent.group (some [ChildUpdate.keepIndex 1])⟩).2.nodes.get 0 =
      some nt ∧ childSlot nt.kind 0 = some 1 :=
  (C5_keep_preserves trigModel exOneChildTree
    ⟨0, NodeContent.group (some [ChildUpdate.keepIndex 1])⟩ ⟨[]⟩
    (Tree.update_node trigModel exOneChildTree
      ⟨0, NodeContent.group (some [ChildUpdate.keepIndex 1])⟩).2
    (Node.new (NodeKind.group [1]) Aabb.INVALID) 0 1
    (Tree.flagsClear_of_all exOneChildTree (by with_unfolding_all decide))
    (by with_unfolding_all decide)
    (by with_unfolding_all decide)
    (by with_unfolding_all decide)
    (by with_unfolding_all decide)
    (by with_unfolding_all decide)
    (by with_unfolding_all decide)
    (by
      rw [Prod.ext_iff]
      exact ⟨by with_unfolding_all decide, rfl⟩)).2

/-! Claim C6: the `KeepIndex` error taxonomy and eager first-error order. -/

/-- The group-children loop splits over list concatenation. -/
theorem updateChildrenLoop_append (trig : Trig) :
    ∀ (as bs : List ChildUpdate) (t : Tree) (buf idxs : List Nat),
      Tree.updateChildrenLoop trig t buf idxs (as ++ bs) =
        match Tree.updateChildrenLoop trig t buf idxs as with
        | (Except.ok out, buf2, t2) => Tree.updateChildrenLoop trig t2 buf2 out bs
        | (Except.error e, buf2, t2) => (Except.error e, buf2, t2) := by
  intro as
  induction as with
  | nil =>
    intro bs t buf idxs
    simp only [List.nil_append, Tree.updateChildrenLoop]
  | cons cu as ih =>
    intro bs t buf idxs
    simp only [List.cons_append, Tree.updateChildrenLoop]
    rcases hc : Tree.update_child trig t buf cu with ⟨r, b1, t1⟩
    cases r with
    | error e => simp only
    | ok i =>
      simp only
      exact ih bs t1 b1 (idxs ++ [i])

/-- If the group-children loop started from the post-`begin` arena fails with
`e`, the whole `update_node` returns `e`. -/
theorem update_node_group_err (trig : Trig) (pre : Tree) (target : Nat)
    (tnode : Node) (cs : List ChildUpdate) (e : NodeUpdateError)
    (bufE : List Nat) (tE : Tree)
    (hget : pre.nodes.get target = some tnode)
    (hloop : Tree.updateChildrenLoop trig (Tree.begin_children_update pre target).2
        [] [] cs = (Except.error e, bufE, tE)) :
    (Tree.update_node trig pre ⟨target, NodeContent.group (some cs)⟩).1 =
      Except.error e := by
  simp only [Tree.update_node]
  rcases hb : Tree.begin_children_update pre target with ⟨rb, tB⟩
  have hrb : rb = Except.ok (Tree.childrenOfKind tnode.kind) := by
    have h1 := congrArg (fun p => p.1) hb
    simp only [Tree.begin_children_update, hget] at h1
    exact h1.symm
  subst hrb
  simp only
  rw [hb] at hloop
  simp only at hloop
  simp only [Tree.update_node_inner, Option.getD]
  rw [hloop]

/-- Claim C6: resolving `KeepIndex(id)` fails, eagerly and in left-to-right
order, with `InvalidKeepIndex(id)` when no node with that id is allocated at
resolution time (neither before the call nor as one of the ids freshly
materialized earlier in this update), otherwise with `UnownedKeepIndex(id)`
when the node is not a direct child of the target (in particular
`KeepIndex(0)` on an update targeting node 0), otherwise with
`DuplicateKeepIndex(id)` when the id was already kept earlier in the same
update.  Stated for a `Group` content whose first `j` entries resolve
successfully (`hpre`), with `buf` the ids materialized by them, and for an
`Operation` content. -/
theorem C6_keep_error_taxonomy (trig : Trig) (pre : Tree) (target : Nat)
    (tnode : Node) (cs : List ChildUpdate) (j id : Nat) (idxs buf : List Nat)
    (tj : Tree)
    (hflags : Tree.flagsClear pre)
    (hget : pre.nodes.get target = some tnode)
    (hca : ∀ c ∈ Tree.childrenOfKind tnode.kind, (pre.nodes.get c).isSome)
    (hj : cs[j]? = some (ChildUpdate.keepIndex id))
    (hpre : Tree.updateChildrenLoop trig (Tree.begin_children_update pre target).2
        [] [] (cs.take j) = (Except.ok idxs, buf, tj)) :
    (pre.nodes.get id = none → id ∉ buf →
      (Tree.update_node trig pre ⟨target, NodeContent.group (some cs)⟩).1 =
        Except.error (NodeUpdateError.invalidKeepIndex id)) ∧
    ((pre.nodes.get id ≠ none ∨ id ∈ buf) →
      id ∉ Tree.childrenOfKind tnode.kind →
      (Tree.update_node trig pre ⟨target, NodeContent.group (some cs)⟩).1 =
        Except.error (NodeUpdateError.unownedKeepIndex id)) ∧
    (id ∈ Tree.childrenOfKind tnode.kind → id ∈ keptIdsOfList (cs.take j) →
      (Tree.update_node trig pre ⟨target, NodeContent.group (some cs)⟩).1 =
        Except.error (NodeUpdateError.duplicateKeepIndex id)) ∧
    (∀ op : Operation,
      (pre.nodes.get id = none →
        (Tree.update_node trig pre
          ⟨target, NodeContent.operation op (ChildUpdate.keepIndex id)⟩).1 =
          Except.error (NodeUpdateError.invalidKeepIndex id)) ∧
      (pre.nodes.get id ≠ none → id ∉ Tree.childrenOfKind tnode.kind →
        (Tree.update_node trig pre
          ⟨target, NodeContent.operation op (ChildUpdate.keepIndex id)⟩).1 =
          Except.error (NodeUpdateError.unownedKeepIndex id))) := by
  obtain ⟨hb1, hbinv⟩ := begin_spec pre target tnode hflags hget
  obtain ⟨ls, rs, hres, hout, hbuf, hinv⟩ :=
    updateChildrenLoop_ok_spec trig pre (Tree.childrenOfKind tnode.kind)
      (cs.take j) (Tree.begin_children_update pre target).2 [] [] [] [] idxs buf tj
      hbinv hpre
  have hbufj : buf = ls.join := by simpa using hbuf
  have hinv2 : MidInv pre tj (Tree.childrenOfKind tnode.kind)
      (keptIdsOfList (cs.take j)) ls.join := by simpa using hinv
  have hjlt : j < cs.length := by
    rcases List.getElem?_eq_some_iff.mp hj with ⟨hl, _⟩
    exact hl
  have hsplit : cs = cs.take j ++ (ChildUpdate.keepIndex id :: cs.drop (j + 1)) := by
    conv_lhs => rw [← List.take_append_drop j cs]
    congr 1
    rw [List.drop_eq_getElem_cons hjlt]
    congr 1
    rcases List.getElem?_eq_some_iff.mp hj with ⟨hl, hv⟩
    exact hv
  have hfail : ∀ e : NodeUpdateError,
      Tree.update_child trig tj buf (ChildUpdate.keepIndex id) =
        (Except.error e, buf, tj) →
      (Tree.update_node trig pre ⟨target, NodeContent.group (some cs)⟩).1 =
        Except.error e := by
    intro e hchild
    apply update_node_group_err trig pre target tnode cs e buf tj hget
    conv_lhs => rw [hsplit]
    rw [updateChildrenLoop_append, hpre]
    simp only [Tree.updateChildrenLoop, hchild]
  refine ⟨?_, ?_, ?_, ?_⟩
  · intro hnone hnotbuf
    apply hfail
    have hgj : tj.nodes.get id = none := by
      cases hg : tj.nodes.get id with
      | none => rfl
      | some n2 =>
        obtain ⟨hmem, _, _⟩ := hinv2.newNodes id n2 hg hnone
        exact absurd (hbufj ▸ hmem) hnotbuf
    simp only [Tree.update_child, hgj]
  · intro halloc hnotchild
    apply hfail
    have hgj : ∃ n2, tj.nodes.get id = some n2 ∧ n2.owned = false := by
      cases hp : pre.nodes.get id with
      | some n =>
        obtain ⟨n2, hg, _, _, hown, _⟩ := hinv2.oldNodes id n hp
        refine ⟨n2, hg, ?_⟩
        rw [hown]
        simp [hnotchild]
      | none =>
        have hmem : id ∈ ls.join := by
          rcases halloc with h | h
          · exact absurd hp h
          · exact hbufj ▸ h
        have hsome := (hinv2.newFresh id hmem).2
        cases hg : tj.nodes.get id with
        | none => rw [hg] at hsome; cases hsome
        | some n2 =>
          obtain ⟨_, hownf, _⟩ := hinv2.newNodes id n2 hg hp
          exact ⟨n2, rfl, hownf⟩
    obtain ⟨n2, hg, hown⟩ := hgj
    simp only [Tree.update_child, hg, hown, Bool.not_false, if_true]
  · intro hchild hkept
    apply hfail
    have hps : (pre.nodes.get id).isSome := hca id hchild
    cases hp : pre.nodes.get id with
    | none => rw [hp] at hps; cases hps
    | some n =>
      obtain ⟨n2, hg, _, _, hown, hreu⟩ := hinv2.oldNodes id n hp
      have hown2 : n2.owned = true := by
        rw [hown]
        simp [hchild]
      have hreu2 : n2.reused = true := by
        rw [hreu]
        simp [hkept]
      simp only [Tree.update_child, hg, hown2, hreu2, Bool.not_true, if_false,
        Bool.false_eq_true, if_true]
  · intro op
    have hfailOp : ∀ e : NodeUpdateError,
        Tree.update_child trig (Tree.begin_children_update pre target).2 []
          (ChildUpdate.keepIndex id) =
          (Except.error e, [], (Tree.begin_children_update pre target).2) →
        (Tree.update_node trig pre
          ⟨target, NodeContent.operation op (ChildUpdate.keepIndex id)⟩).1 =
          Except.error e := by
      intro e hchild
      simp only [Tree.update_node]
      rcases hb : Tree.begin_children_update pre target with ⟨rb, tB⟩
      have hrb : rb = Except.ok (Tree.childrenOfKind tnode.kind) := by
        have h1 := congrArg (fun p => p.1) hb
        simp only [Tree.begin_children_update, hget] at h1
        exact h1.symm
      subst hrb
      simp only
      rw [hb] at hchild
      simp only at hchild
      simp only [Tree.update_node_inner]
      rw [hchild]
    constructor
    · intro hnone
      apply hfailOp
      have hgB : (Tree.begin_children_update pre target).2.nodes.get id = none := by
        cases hg : (Tree.begin_children_update pre target).2.nodes.get id with
        | none => rfl
        | some n2 =>
          obtain ⟨hmem, _, _⟩ := hbinv.newNodes id n2 hg hnone
          cases hmem
      simp only [Tree.update_child, hgB]
    · intro halloc hnotchild
      apply hfailOp
      cases hp : pre.nodes.get id with
      | none => exact absurd hp halloc
      | some n =>
        obtain ⟨n2, hg, _, _, hown, _⟩ := hbinv.oldNodes id n hp
        have hownf : n2.owned = false := by
          rw [hown]
          simp [hnotchild]
        simp only [Tree.update_child, hg, hownf, Bool.not_false, if_true]

/-- Claim C6 witness: `KeepIndex(0)` in a group update targeting node 0 of a
fresh tree fails with `UnownedKeepIndex(0)` (the target is never its own
child). -/
theorem C6_witness :
    (Tree.update_node trigModel Tree.new
      ⟨0, NodeContent.group (some [ChildUpdate.keepIndex 0])⟩).1 =
      Except.error (NodeUpdateError.unownedKeepIndex 0) :=
  (C6_keep_error_taxonomy trigModel Tree.new 0
    (Node.new (NodeKind.shape Shape.empty) Aabb.default)
    [ChildUpdate.keepIndex 0] 0 0 [] []
    (Tree.begin_children_update Tree.new 0).2
    (Tree.flagsClear_of_all Tree.new (by with_unfolding_all decide))
    (by with_unfolding_all decide)
    (by with_unfolding_all decide)
    rfl
    (by with_unfolding_all decide)).2.1
    (Or.inl (by with_unfolding_all decide))
    (by with_unfolding_all decide)

/-! Claim C8: push/pop balance of the walk trace. -/

/-- Balanced parenthesization of a callback trace: shapes are neutral, every
`push_operation` wraps a balanced segment and is closed by a `pop_operation`
carrying the same operation value. -/
inductive Matched : List Event → Prop where
  | nil : Matched []
  | shape : ∀ (s : Shape), Matched [Event.onShape s]
  | wrap : ∀ (op : Operation) (es : List Event), Matched es →
      Matched (Event.pushOp op :: es ++ [Event.popOp op])
  | append : ∀ (a b : List Event), Matched a → Matched b → Matched (a ++ b)

/-- Spec invariant 2 (referential integrity): every child reference of an
allocated node is allocated. -/
def Tree.refIntegrity (t : Tree) : Prop :=
  ∀ i n, t.nodes.get i = some n →
    ∀ c ∈ Tree.childrenOfKind n.kind, (t.nodes.get c).isSome

/-- Spec invariant 3 (well-foundedness of the reachability graph), packaged as
an arbitrary rank function that strictly decreases from parents to children. -/
def Tree.rankDec (t : Tree) (rank : Nat → Nat) : Prop :=
  ∀ i n, t.nodes.get i = some n →
    ∀ c ∈ Tree.childrenOfKind n.kind, rank c < rank i

theorem Slab.get_lt_length {α : Type} (s : Slab α) (i : Nat) (a : α)
    (h : s.get i = some a) : i < s.entries.length := by
  unfold Slab.get at h
  cases he : s.entries[i]? with
  | none => rw [he] at h; cases h
  | some e =>
    rcases List.getElem?_eq_some_iff.mp he with ⟨hl, _⟩
    exact hl

/-- Decidable per-index check for referential integrity. -/
def Tree.childOkAt (t : Tree) (i : Nat) : Bool :=
  match t.nodes.get i with
  | some n => (Tree.childrenOfKind n.kind).all (fun c => (t.nodes.get c).isSome)
  | none => true

theorem Tree.refIntegrity_of_check (t : Tree)
    (h : (List.range t.nodes.entries.length).all t.childOkAt = true) :
    t.refIntegrity := by
  intro i n hg c hc
  have hlt := Slab.get_lt_length t.nodes i n hg
  have hok := List.all_eq_true.mp h i (List.mem_range.mpr hlt)
  unfold Tree.childOkAt at hok
  rw [hg] at hok
  exact List.all_eq_true.mp hok c hc

/-- Decidable per-index check for rank decrease. -/
def Tree.rankOkAt (t : Tree) (rank : Nat → Nat) (i : Nat) : Bool :=
  match t.nodes.get i with
  | some n => (Tree.childrenOfKind n.kind).all (fun c => decide (rank c < rank i))
  | none => true

theorem Tree.rankDec_of_check (t : Tree) (rank : Nat → Nat)
    (h : (List.range t.nodes.entries.length).all (t.rankOkAt rank) = true) :
    t.rankDec rank := by
  intro i n hg c hc
  have hlt := Slab.get_lt_length t.nodes i n hg
  have hok := List.all_eq_true.mp h i (List.mem_range.mpr hlt)
  unfold Tree.rankOkAt at hok
  rw [hg] at hok
  exact of_decide_eq_true (List.all_eq_true.mp hok c hc)

/-- `newTransformOf` and the pop-side `isTransformOp` match agree. -/
theorem isTransformOp_eq_isSome (trig : Trig) (op : Operation) :
    isTransformOp op = (newTransformOf trig op).isSome := by
  cases op <;> rfl

theorem walkLoop_step_culled (trig : Trig) (t : Tree) (vp : Aabb)
    (i : Nat) (n : Node) (T : Mat3) (hn : t.nodes.get i = some n)
    (hI : vp.is_intersecting (transformedAabb T n.aabb) = false)
    (fuel : Nat) (rest : List (Nat × Bool)) (ts : List Mat3) (acc : List Event) :
    Tree.walkLoop trig t vp (fuel + 1) ((i, true) :: rest) (T :: ts) acc =
      Tree.walkLoop trig t vp fuel rest (T :: ts) acc := by
  conv_lhs => rw [Tree.walkLoop.eq_def]
  simp [hn, hI]

theorem walkLoop_step_shape (trig : Trig) (t : Tree) (vp : Aabb)
    (i : Nat) (n : Node) (s : Shape) (T : Mat3) (hn : t.nodes.get i = some n)
    (hkind : n.kind = NodeKind.shape s)
    (hI : vp.is_intersecting (transformedAabb T n.aabb) = true)
    (fuel : Nat) (rest : List (Nat × Bool)) (ts : List Mat3) (acc : List Event) :
    Tree.walkLoop trig t vp (fuel + 1) ((i, true) :: rest) (T :: ts) acc =
      Tree.walkLoop trig t vp fuel rest (T :: ts) (acc ++ [Event.onShape s]) := by
  conv_lhs => rw [Tree.walkLoop.eq_def]
  simp [hn, hI, hkind]

theorem walkLoop_step_group (trig : Trig) (t : Tree) (vp : Aabb)
    (i : Nat) (n : Node) (children : List Nat) (T : Mat3)
    (hn : t.nodes.get i = some n) (hkind : n.kind = NodeKind.group children)
    (hI : vp.is_intersecting (transformedAabb T n.aabb) = true)
    (fuel : Nat) (rest : List (Nat × Bool)) (ts : List Mat3) (acc : List Event) :
    Tree.walkLoop trig t vp (fuel + 1) ((i, true) :: rest) (T :: ts) acc =
      Tree.walkLoop trig t vp fuel
        (children.map (fun c => (c, true)) ++ rest) (T :: ts) acc := by
  conv_lhs => rw [Tree.walkLoop.eq_def]
  simp [hn, hI, hkind]

theorem walkLoop_step_op_asc (trig : Trig) (t : Tree) (vp : Aabb)
    (i : Nat) (n : Node) (op : Operation) (child : Nat) (T : Mat3)
    (hn : t.nodes.get i = some n) (hkind : n.kind = NodeKind.operation op child)
    (hI : vp.is_intersecting (transformedAabb T n.aabb) = true)
    (fuel : Nat) (rest : List (Nat × Bool)) (ts : List Mat3) (acc : List Event) :
    Tree.walkLoop trig t vp (fuel + 1) ((i, true) :: rest) (T :: ts) acc =
      Tree.walkLoop trig t vp fuel ((child, true) :: (i, false) :: rest)
        (match newTransformOf trig op with
          | some newTransform => (T.mul newTransform) :: T :: ts
          | none => T :: ts)
        (acc ++ [Event.pushOp op]) := by
  conv_lhs => rw [Tree.walkLoop.eq_def]
  cases hnt : newTransformOf trig op <;> simp [hn, hI, hkind, hnt]

theorem walkLoop_step_op_desc (trig : Trig) (t : Tree) (vp : Aabb)
    (i : Nat) (n : Node) (op : Operation) (child : Nat)
    (hn : t.nodes.get i = some n) (hkind : n.kind = NodeKind.operation op child)
    (fuel : Nat) (rest : List (Nat × Bool)) (transforms : List Mat3)
    (htne : transforms ≠ []) (acc : List Event) :
    Tree.walkLoop trig t vp (fuel + 1) ((i, false) :: rest) transforms acc =
      Tree.walkLoop trig t vp fuel rest
        (if isTransformOp op then transforms.tail else transforms)
        (acc ++ [Event.popOp op]) := by
  cases transforms with
  | nil => exact absurd rfl htne
  | cons T ts =>
    conv_lhs => rw [Tree.walkLoop.eq_def]
    by_cases hto : isTransformOp op <;> simp [hn, hkind, hto]

/-- Decomposition of the walk machine: under referential integrity and a
parent-to-child decreasing rank, the first visit of any node consumes a fixed
amount of fuel, appends a balanced trace to the accumulator, and returns the
machine to the remaining stack with the transform stack unchanged. -/
theorem walkVisit (trig : Trig) (t : Tree) (vp : Aabb) (rank : Nat → Nat)
    (hri : t.refIntegrity) (hrk : t.rankDec rank) :
    ∀ (r i : Nat) (n : Node), rank i < r → t.nodes.get i = some n →
      ∀ (T : Mat3), ∃ (c : Nat) (ev : List Event), Matched ev ∧
        ∀ (m : Nat) (rest : List (Nat × Bool)) (ts : List Mat3) (acc : List Event),
          Tree.walkLoop trig t vp (c + m) ((i, true) :: rest) (T :: ts) acc =
            Tree.walkLoop trig t vp m rest (T :: ts) (acc ++ ev) := by
  intro r
  induction r with
  | zero =>
    intro i n hlt hget T
    exact absurd hlt (Nat.not_lt_zero _)
  | succ r ih =>
    intro i n hlt hget T
    cases hI : vp.is_intersecting (transformedAabb T n.aabb) with
    | false =>
      refine ⟨1, [], Matched.nil, ?_⟩
      intro m rest ts acc
      rw [Nat.add_comm 1 m, walkLoop_step_culled trig t vp i n T hget hI m rest ts acc]
      simp
    | true =>
      cases hkind : n.kind with
      | shape s =>
        refine ⟨1, [Event.onShape s], Matched.shape s, ?_⟩
        intro m rest ts acc
        rw [Nat.add_comm 1 m,
          walkLoop_step_shape trig t vp i n s T hget hkind hI m rest ts acc]
      | operation op child =>
        have hcm : child ∈ Tree.childrenOfKind n.kind := by
          rw [hkind]
          exact List.mem_singleton.mpr rfl
        have hcs := hri i n hget child hcm
        have hcr : rank child < r :=
          Nat.lt_of_lt_of_le (hrk i n hget child hcm) (Nat.lt_succ_iff.mp hlt)
        cases hcg : t.nodes.get child with
        | none => rw [hcg] at hcs; cases hcs
        | some nc =>
          cases hnt : newTransformOf trig op with
          | some M =>
            obtain ⟨cc, evc, hmc, hstep⟩ := ih child nc hcr hcg (T.mul M)
            refine ⟨cc + 2, Event.pushOp op :: evc ++ [Event.popOp op],
              Matched.wrap op evc hmc, ?_⟩
            intro m rest ts acc
            have h1 : (cc + 2) + m = (cc + (m + 1)) + 1 := by omega
            rw [h1, walkLoop_step_op_asc trig t vp i n op child T hget hkind hI
              (cc + (m + 1)) rest ts acc, hnt]
            rw [hstep (m + 1) ((i, false) :: rest) (T :: ts) (acc ++ [Event.pushOp op])]
            rw [walkLoop_step_op_desc trig t vp i n op child hget hkind m rest
              ((T.mul M) :: T :: ts) (by simp) (acc ++ [Event.pushOp op] ++ evc)]
            have hto : isTransformOp op = true := by
              rw [isTransformOp_eq_isSome trig op, hnt]
              rfl
            simp [hto, List.append_assoc]
          | none =>
            obtain ⟨cc, evc, hmc, hstep⟩ := ih child nc hcr hcg T
            refine ⟨cc + 2, Event.pushOp op :: evc ++ [Event.popOp op],
              Matched.wrap op evc hmc, ?_⟩
            intro m rest ts acc
            have h1 : (cc + 2) + m = (cc + (m + 1)) + 1 := by omega
            rw [h1, walkLoop_step_op_asc trig t vp i n op child T hget hkind hI
              (cc + (m + 1)) rest ts acc, hnt]
            rw [hstep (m + 1) ((i, false) :: rest) ts (acc ++ [Event.pushOp op])]
            rw [walkLoop_step_op_desc trig t vp i n op child hget hkind m rest
              (T :: ts) (by simp) (acc ++ [Event.pushOp op] ++ evc)]
            have hto : isTransformOp op = false := by
              rw [isTransformOp_eq_isSome trig op, hnt]
              rfl
            simp [hto, List.append_assoc]
      | group children =>
        have hlist : ∀ (cs : List Nat), (∀ c ∈ cs, c ∈ Tree.childrenOfKind n.kind) →
            ∃ (cc : Nat) (evs : List Event), Matched evs ∧
              ∀ (m : Nat) (rest : List (Nat × Bool)) (ts : List Mat3)
                (acc : List Event),
                Tree.walkLoop trig t vp (cc + m)
                    (cs.map (fun c => (c, true)) ++ rest) (T :: ts) acc =
                  Tree.walkLoop trig t vp m rest (T :: ts) (acc ++ evs) := by
          intro cs
          induction cs with
          | nil =>
            intro _
            refine ⟨0, [], Matched.nil, ?_⟩
            intro m rest ts acc
            simp
          | cons c cs ihl =>
            intro hsub
            have hcm : c ∈ Tree.childrenOfKind n.kind := hsub c (List.mem_cons_self c cs)
            have hcs := hri i n hget c hcm
            have hcr : rank c < r :=
              Nat.lt_of_lt_of_le (hrk i n hget c hcm) (Nat.lt_succ_iff.mp hlt)
            cases hcg : t.nodes.get c with
            | none => rw [hcg] at hcs; cases hcs
            | some nc =>
              obtain ⟨c1, ev1, hm1, h1⟩ := ih c nc hcr hcg T
              obtain ⟨c2, ev2, hm2, h2⟩ :=
                ihl (fun x hx => hsub x (List.mem_cons_of_mem c hx))
              refine ⟨c1 + c2, ev1 ++ ev2, Matched.append ev1 ev2 hm1 hm2, ?_⟩
              intro m rest ts acc
              have hshape : (c :: cs).map (fun x => (x, true)) ++ rest =
                  (c, true) :: (cs.map (fun x => (x, true)) ++ rest) := by simp
              rw [hshape]
              have hf : (c1 + c2) + m = c1 + (c2 + m) := by omega
              rw [hf, h1 (c2 + m) (cs.map (fun x => (x, true)) ++ rest) ts acc]
              rw [h2 m rest ts (acc ++ ev1)]
              simp [List.append_assoc]
        obtain ⟨cc, evs, hms, hsteps⟩ := hlist children (by
          rw [hkind]
          exact fun c hc => hc)
        refine ⟨cc + 1, evs, hms, ?_⟩
        intro m rest ts acc
        have h1 : (cc + 1) + m = (cc + m) + 1 := by omega
        rw [h1, walkLoop_step_group trig t vp i n children T hget hkind hI
          (cc + m) rest ts acc]
        exact hsteps m rest ts acc

/-- Claim C8: for every tree satisfying the structural invariants (every child
reference allocated, the reachability graph well-founded via some rank) and
every viewport, the walk terminates with a trace that is a balanced
parenthesization: every `push_operation` is closed by exactly one matching
`pop_operation` with the same operation value, with proper nesting, regardless
of culling decisions inside subtrees (`Matched`). -/
theorem C8_push_pop_balance (trig : Trig) (t : Tree) (vp : Aabb)
    (rank : Nat → Nat) (n0 : Node)
    (hri : t.refIntegrity) (hrk : t.rankDec rank)
    (hroot : t.nodes.get 0 = some n0) :
    ∃ (fuel : Nat) (ev : List Event),
      t.walk trig vp fuel = some ev ∧ Matched ev := by
  obtain ⟨c, ev, hm, hstep⟩ :=
    walkVisit trig t vp rank hri hrk (rank 0 + 1) 0 n0 (Nat.lt_succ_self _)
      hroot Mat3.default
  refine ⟨c + 0, ev, ?_, hm⟩
  unfold Tree.walk
  rw [hstep 0 [] [] []]
  simp [Tree.walkLoop]

/-- The concrete tree of the C8 witness: `Translate` over a circle. -/
def exOpTree : Tree :=
  (Tree.update_node trigModel Tree.new
    ⟨0, NodeContent.operation (Operation.translate ⟨F32.fin 1, F32.fin 1⟩)
      (ChildUpdate.newNode (NewNode.shape (Shape.circle (F32.fin 1))))⟩).2

/-- Claim C8 witness: the theorem applied to a concrete operation-over-shape
tree with an explicit rank function. -/
theorem C8_witness :
    ∃ (fuel : Nat) (ev : List Event),
      exOpTree.walk trigModel exViewport fuel = some ev ∧ Matched ev :=
  C8_push_pop_balance trigModel exOpTree exViewport
    (fun i => if i = 0 then 1 else 0)
    (Node.new
      (NodeKind.operation (Operation.translate ⟨F32.fin 1, F32.fin 1⟩) 1)
      ⟨⟨F32.fin 0, F32.fin 0⟩, ⟨F32.fin 2, F32.fin 2⟩⟩)
    (Tree.refIntegrity_of_check exOpTree (by with_unfolding_all decide))
    (Tree.rankDec_of_check exOpTree (fun i => if i = 0 then 1 else 0)
      (by with_unfolding_all decide))
    (by with_unfolding_all decide)

end Willow
